import Mathlib

/-!
Shallow embedding of the request-routing and streaming-forwarding core of the
OpenAI-compatible reverse proxy (the `app` package of the repository:
`upstream.py`, `proxy_http.py`, `shiff.py`, `stream_json.py`, `middleware.py`,
`routers/proxy.py`), together with theorems checking the specification's
claims against it.

Modelling conventions:
* Python `str` is modelled by Lean `String`; the Python string operations used
  by the source (`lower`, `strip`, `rstrip`, `startswith`, `endswith`, `in`,
  slicing) are modelled by helpers operating on `String.data`.
* Request and response bodies are byte streams; a byte is a `Nat` (0..255) and
  a chunk a `List Nat`; an async iterator of chunks is a `List (List Nat)`.
* A Python `dict[str, str]` built by item assignment is modelled by an
  association list with overwrite-on-insert (`dictSet`), preserving insertion
  order exactly as CPython dicts do.
* Network sends and their outcomes are abstracted as explicit parameters
  (`Attempt`): the embedding models the proxy's control flow around them.
-/

namespace Proxy

/-- Python `pat in s` (substring containment) on `str`. -/
def pyContains (s pat : String) : Bool := decide (pat.data <:+: s.data)

/-- Python `s.startswith(pat)`. -/
def pyStartsWith (s pat : String) : Bool := decide (pat.data <+: s.data)

/-- Python `s.endswith(pat)`. -/
def pyEndsWith (s pat : String) : Bool := decide (pat.data <:+ s.data)

/-- Python `s.lower()`. -/
def pyLower (s : String) : String := ⟨s.data.map Char.toLower⟩

/-- Python `s.strip()` (whitespace strip on both ends). -/
def pyStrip (s : String) : String :=
  ⟨((s.data.dropWhile Char.isWhitespace).reverse.dropWhile Char.isWhitespace).reverse⟩

/-- Python `s.rstrip("/")`: remove all trailing slashes. -/
def pyRstripSlash (s : String) : String :=
  ⟨(s.data.reverse.dropWhile (fun c => c = '/')).reverse⟩

/-- Python `s[n:]` for a Python `str` (drop the first `n` characters). -/
def pyDrop (s : String) (n : Nat) : String := ⟨s.data.drop n⟩

/-- Truthiness of a Python `Optional[str]`: `None` and `""` are falsy. -/
def pyTruthy : Option String → Bool
  | none => false
  | some s => s ≠ ""

/-! ### `app/upstream.py` -/

/-- `join_upstream_url` from `app/upstream.py` (lines 31-46): strip trailing
slashes from the base, force a leading slash on the path, and drop the leading
`/v1` of the path when the base already ends in `/v1` or `/v1/openai`. -/
def join_upstream_url (base_url incoming_path : String) : String :=
  let base := pyRstripSlash base_url
  let path := if pyStartsWith incoming_path "/" then incoming_path else "/" ++ incoming_path
  let path :=
    if (pyEndsWith base "/v1" || pyEndsWith base "/v1/openai") && pyStartsWith path "/v1/" then
      pyDrop path 3
    else path
  base ++ path

/-- The path normalization step of `join_upstream_url`: force a leading `/`. -/
def normPath (path : String) : String :=
  if pyStartsWith path "/" then path else "/" ++ path

/-- The condition of `join_upstream_url` under which the leading `/v1` of the
path is dropped. -/
def stripCond (base p0 : String) : Bool :=
  (pyEndsWith base "/v1" || pyEndsWith base "/v1/openai") && pyStartsWith p0 "/v1/"

/-- The five components returned by `urllib.parse.urlsplit`. -/
structure UrlParts where
  scheme : String
  netloc : String
  path : String
  query : String
  fragment : String
  deriving DecidableEq, Repr

/-- `urllib.parse.urlunsplit` for URLs that carry a scheme and a netloc (the
shape of every upstream URL handled by the proxy). -/
def urlunsplit (p : UrlParts) : String :=
  (if p.scheme ≠ "" then p.scheme ++ ":" else "") ++
    (if p.netloc ≠ "" then "//" ++ p.netloc else "") ++
    p.path ++
    (if p.query ≠ "" then "?" ++ p.query else "") ++
    (if p.fragment ≠ "" then "#" ++ p.fragment else "")

/-- The SSL error markers of `http_fallback_url_on_ssl_error`. -/
def ssl_markers : List String :=
  ["record layer failure", "wrong version number", "tlsv1 alert", "ssl"]

/-- `http_fallback_url_on_ssl_error` from `app/upstream.py` (lines 49-73).
The URL is taken already split (`urlsplit`); `allow_downgrade` is the value of
`allow_ssl_downgrade()` (environment flag `PROXY_ALLOW_SSL_DOWNGRADE`);
`errStr` is `str(err)`.  Note that the source consults no hostname allow-list:
the decision depends only on the flag, the scheme and the error message. -/
def http_fallback_url_on_ssl_error (allow_downgrade : Bool) (parts : UrlParts)
    (errStr : String) : Option String :=
  if ¬ allow_downgrade then none
  else if parts.scheme ≠ "https" then none
  else
    let msg := pyLower errStr
    if ¬ ssl_markers.any (fun marker => pyContains msg marker) then none
    else some (urlunsplit { parts with scheme := "http" })

/-! ### `app/proxy_http.py`: send/fallback control flow -/

/-- Outcome of one `client.send` call, abstracted. -/
inductive Attempt where
  | success
  | timeout
  | reqError (msg : String)
  deriving DecidableEq, Repr

/-- The `content=` argument handed to `client.build_request`: either `None` or
the (single, shared) `body_stream` async iterator. -/
inductive ReqContent where
  | noBody
  | bodyStream
  deriving DecidableEq, Repr

/-- One upstream request as built by `client.build_request`. -/
structure SendRec where
  url : String
  content : ReqContent
  deriving DecidableEq, Repr

/-- An OpenAI-style error envelope as produced by `openai_error` in
`app/errors.py`. -/
structure ErrResp where
  status : Nat
  errType : String
  code : Option String
  message : String
  deriving DecidableEq, Repr

/-- `openai_error` from `app/errors.py`. -/
def openai_error (status : Nat) (message : String) (errType : String)
    (code : Option String) : ErrResp :=
  ⟨status, errType, code, message⟩

/-- Result of the send/fallback phase of `proxy_http`. -/
inductive PhaseResult where
  | streamed
  | errResp (e : ErrResp)
  deriving DecidableEq, Repr

/-- The send/fallback phase of `proxy_http` in `app/proxy_http.py`
(lines 66-100): build the request (body only for POST/PUT/PATCH), send; on
timeout return 504 `timeout_error`; on a request error consult
`http_fallback_url_on_ssl_error` and either return 502 `api_error` or rebuild
the request **with the same `body_stream`** at the downgraded URL and send
exactly once more.  The outcomes of the (at most two) sends are the
parameters `first` and `second`; the returned list records the requests
actually built and sent. -/
def proxy_http_send_phase (method : String) (url : UrlParts) (base_url : String)
    (allow_downgrade : Bool) (first second : Attempt) :
    List SendRec × PhaseResult :=
  let content := if method = "POST" ∨ method = "PUT" ∨ method = "PATCH" then
    ReqContent.bodyStream else ReqContent.noBody
  let req1 : SendRec := ⟨urlunsplit url, content⟩
  match first with
  | .success => ([req1], .streamed)
  | .timeout => ([req1], .errResp (openai_error 504 ("Upstream timeout: " ++ base_url) "timeout_error" none))
  | .reqError msg =>
    match http_fallback_url_on_ssl_error allow_downgrade url msg with
    | none => ([req1], .errResp (openai_error 502 ("Upstream request error: " ++ msg) "api_error" none))
    | some fallback_url =>
      let req2 : SendRec := ⟨fallback_url, content⟩
      match second with
      | .success => ([req1, req2], .streamed)
      | .timeout => ([req1, req2], .errResp (openai_error 504 ("Upstream timeout: " ++ base_url) "timeout_error" none))
      | .reqError _ => ([req1, req2], .errResp (openai_error 502 ("Upstream request error: " ++ msg) "api_error" none))

/-! ### `app/middleware.py`: environment parsing and bearer auth -/

/-- `_env_bool` from `app/middleware.py` (lines 13-15): `raw` is the result of
`os.getenv(name, default_string)`. -/
def _env_bool (raw : Option String) (default : Bool) : Bool :=
  let r := pyLower (pyStrip (raw.getD (if default then "1" else "0")))
  r = "1" ∨ r = "true" ∨ r = "yes" ∨ r = "on"

/-- `auth_required()` from `app/middleware.py`: `_env_bool("API_AUTH_REQUIRED", True)`. -/
def auth_required (envAuthRequired : Option String) : Bool :=
  _env_bool envAuthRequired true

/-- `bearer_token()` from `app/middleware.py`: `os.getenv("API_BEARER_TOKEN", "").strip()`. -/
def bearer_token (envBearerToken : Option String) : String :=
  pyStrip (envBearerToken.getD "")

/-- Modelled from the spec: the canonical application entrypoint
(`app.main.lifespan`) is not present under `src/` — the `app/main.py` in the
tree is the sibling `Dynamic vLLM Proxy` draft, which defines no `lifespan`,
while `tests/test_main_security.py` imports `app.main.lifespan` and expects it
to raise `RuntimeError`.  Per the spec (§4.9): "If `AUTH_REQUIRED` is set and
`BEARER_TOKEN` is empty, process startup fails."  `Except.error` models the
`RuntimeError` that aborts startup. -/
def lifespan_startup (envAuthRequired envBearerToken : Option String) :
    Except String Unit :=
  if auth_required envAuthRequired ∧ bearer_token envBearerToken = "" then
    .error "API_AUTH_REQUIRED is set but API_BEARER_TOKEN is empty"
  else .ok ()

/-! ### `app/proxy_http.py`: header filtering -/

/-- The hop-by-hop header set `HOP_BY_HOP` of `app/proxy_http.py`. -/
def HOP_BY_HOP : List String :=
  ["connection", "keep-alive", "proxy-authenticate", "proxy-authorization",
   "te", "trailers", "transfer-encoding", "upgrade", "host"]

/-- CPython `dict` item assignment `d[k] = v` on a `dict[str, str]` modelled as
an association list in insertion order: overwrite in place if the key exists,
else append. -/
def dictSet (d : List (String × String)) (k v : String) : List (String × String) :=
  if d.any (fun p => p.1 = k) then
    d.map (fun p => if p.1 = k then (k, v) else p)
  else d ++ [(k, v)]

/-- CPython `dict` lookup `d.get(k)`. -/
def dictGet (d : List (String × String)) (k : String) : Option String :=
  (d.find? (fun p => p.1 = k)).map Prod.snd

/-- `_filtered_headers` from `app/proxy_http.py` (lines 193-205).  The
request's headers arrive as the (name, value) pairs of
`request.headers.items()`; `api_key` and `model` are the fields of the
resolved `Upstream`. -/
def _filtered_headers (reqHeaders : List (String × String))
    (api_key model : String) : List (String × String) :=
  let headers := reqHeaders.foldl
    (fun acc kv =>
      let lk := pyLower kv.1
      if HOP_BY_HOP.contains lk then acc
      else if lk = "authorization" then acc
      else dictSet acc kv.1 kv.2)
    []
  let headers :=
    if api_key ≠ "" then dictSet headers "Authorization" ("Bearer " ++ api_key)
    else headers
  dictSet headers "X-Proxy-Model" model

/-! ### `app/middleware.py`: rate limiting -/

/-- A per-client token bucket entry of `RateLimitMiddleware._buckets`:
`(last_refill_monotonic_time, tokens)`.  Python floats are modelled by `ℚ`. -/
structure Bucket where
  last : ℚ
  tokens : ℚ
  deriving DecidableEq, Repr

/-- The bucket capacity `float(self.burst or self.rps)`. -/
def bucketCap (rps burst : Int) : ℚ :=
  if burst ≠ 0 then (burst : ℚ) else (rps : ℚ)

/-- The `defaultdict` initial bucket `(0.0, float(self.burst or self.rps))`. -/
def bucketInit (rps burst : Int) : Bucket :=
  ⟨0, bucketCap rps burst⟩

/-- One pass of `RateLimitMiddleware.__call__` over an HTTP scope with the
limiter enabled (`app/middleware.py` lines 130-143): refill, then either
reject with 429 (keeping the refilled tokens) or admit and consume one token.
Returns `(admitted?, updated bucket)`. -/
def rateLimitStep (rps burst : Int) (now : ℚ) (b : Bucket) : Bool × Bucket :=
  let cap := bucketCap rps burst
  let tokens := min cap (b.tokens + (now - b.last) * (rps : ℚ))
  if tokens < 1 then (false, ⟨now, tokens⟩)
  else (true, ⟨now, tokens - 1⟩)

/-- The admission decision of `RateLimitMiddleware.__call__` including the
disable guard (lines 120-126): with `rps ≤ 0` or a non-HTTP scope the request
is passed through and the bucket map is untouched; otherwise `rateLimitStep`
runs and a rejection produces the 429 `rate_limit_error` response. -/
def rate_limit_call (rps burst : Int) (scopeType : String) (now : ℚ)
    (b : Bucket) : Option ErrResp × Bucket :=
  if rps ≤ 0 then (none, b)
  else if scopeType ≠ "http" then (none, b)
  else
    let (ok, b') := rateLimitStep rps burst now b
    if ok then (none, b') else (some ⟨429, "rate_limit_error", none, "Too Many Requests"⟩, b')

/-- The bucket of one client key after a sequence of admitted-or-rejected
requests at the given monotonic instants, starting from the `defaultdict`
initial bucket. -/
def runBucket (rps burst : Int) (times : List ℚ) : Bucket :=
  times.foldl (fun b t => (rateLimitStep rps burst t b).2) (bucketInit rps burst)

/-! ### Incremental UTF-8 decoding (`codecs.getincrementaldecoder("utf-8")`,
strict errors), used by `_mirror_sse_chunks_to_redis` -/

/-- A byte stream chunk. -/
abbrev Bytes := List Nat

/-- Decode one code point from the front of a byte list.
`Except.error` models `UnicodeDecodeError` (strict errors); `.ok none` means
the input is a (possibly empty) incomplete sequence that stays pending;
`.ok (some (c, rest))` yields one decoded character.  Continuation-range
checks follow RFC 3629 (no overlongs, no surrogates, max U+10FFFF), as CPython
implements them. -/
def decode1 : Bytes → Except Unit (Option (Char × Bytes))
  | [] => .ok none
  | b :: rest =>
    if b < 128 then .ok (some (Char.ofNat b, rest))
    else if 194 ≤ b ∧ b ≤ 223 then
      match rest with
      | [] => .ok none
      | c1 :: r =>
        if 128 ≤ c1 ∧ c1 ≤ 191 then
          .ok (some (Char.ofNat ((b - 192) * 64 + (c1 - 128)), r))
        else .error ()
    else if 224 ≤ b ∧ b ≤ 239 then
      match rest with
      | [] => .ok none
      | c1 :: r =>
        let lo1 := if b = 224 then 160 else 128
        let hi1 := if b = 237 then 159 else 191
        if lo1 ≤ c1 ∧ c1 ≤ hi1 then
          match r with
          | [] => .ok none
          | c2 :: r2 =>
            if 128 ≤ c2 ∧ c2 ≤ 191 then
              .ok (some (Char.ofNat ((b - 224) * 4096 + (c1 - 128) * 64 + (c2 - 128)), r2))
            else .error ()
        else .error ()
    else if 240 ≤ b ∧ b ≤ 244 then
      match rest with
      | [] => .ok none
      | c1 :: r =>
        let lo1 := if b = 240 then 144 else 128
        let hi1 := if b = 244 then 143 else 191
        if lo1 ≤ c1 ∧ c1 ≤ hi1 then
          match r with
          | [] => .ok none
          | c2 :: r2 =>
            if 128 ≤ c2 ∧ c2 ≤ 191 then
              match r2 with
              | [] => .ok none
              | c3 :: r3 =>
                if 128 ≤ c3 ∧ c3 ≤ 191 then
                  .ok (some (Char.ofNat
                    ((b - 240) * 262144 + (c1 - 128) * 4096 + (c2 - 128) * 64 + (c3 - 128)), r3))
                else .error ()
            else .error ()
        else .error ()
    else .error ()

/-- Decode as many complete code points as possible from the front, with a
fuel bound (each decoded character consumes at least one byte, so any
`fuel ≥ bs.length` gives the unbounded behaviour). -/
def utf8RunF : Nat → Bytes → Except Unit (List Char × Bytes)
  | 0, bs => .ok ([], bs)
  | fuel + 1, bs =>
    match decode1 bs with
    | .error e => .error e
    | .ok none => .ok ([], bs)
    | .ok (some (c, rest)) =>
      match utf8RunF fuel rest with
      | .error e => .error e
      | .ok (cs, p) => .ok (c :: cs, p)

/-- Decode as many complete code points as possible from the front, returning
the decoded characters and the pending (incomplete trailing) bytes. -/
def utf8Run (bs : Bytes) : Except Unit (List Char × Bytes) :=
  utf8RunF bs.length bs

/-- `decoder.decode(chunk, final=False)` with carried pending bytes. -/
def incDecode (pending chunk : Bytes) : Except Unit (List Char × Bytes) :=
  utf8Run (pending ++ chunk)

/-- `decoder.decode(b"", final=True)`: flush; a nonempty pending sequence is a
`UnicodeDecodeError`. -/
def incDecodeFinal (pending : Bytes) : Except Unit (List Char) :=
  match utf8Run pending with
  | .error e => .error e
  | .ok (cs, p) => if p = [] then .ok cs else .error ()

/-! ### `app/stream_json.py` and `_mirror_sse_chunks_to_redis` -/

/-- The two payload shapes written to the stream log. -/
inductive Payload where
  | chunk (s : List Char)
  | done
  deriving DecidableEq, Repr

/-- A Redis Streams operation issued by the mirror. -/
inductive RedisOp where
  | xadd (key : String) (p : Payload)
  | xtrim (key : String) (maxlen : Nat) (approx : Bool)
  deriving DecidableEq, Repr

/-- `write_response_raw_json` from `app/stream_json.py` (lines 27-53) as the
sequence of Redis operations it issues: one `XADD` with no `MAXLEN`, plus —
only when `done=True` — one `XTRIM maxlen=terminal_maxlen approximate=True`. -/
def write_response_raw_json (key : String) (p : Payload) (done : Bool)
    (terminal_maxlen : Nat) : List RedisOp :=
  [RedisOp.xadd key p] ++ (if done then [RedisOp.xtrim key terminal_maxlen true] else [])

/-- `_mirror_sse_chunks_to_redis` from `app/proxy_http.py` (lines 133-178),
processing the upstream chunks with the incremental decoder state `pending`.
Returns `(redis operations issued, chunks yielded downstream, completed?)`.
`completed? = false` models the `UnicodeDecodeError` escaping the generator
(the decoder calls are outside every `try`), which aborts the stream before
any further write or yield.  Redis write errors are swallowed by the source
and do not affect the sequence of attempted operations. -/
def mirrorGo (key : String) : List Bytes → Bytes → List RedisOp × List Bytes × Bool
  | [], pending =>
    match incDecodeFinal pending with
    | .error _ => ([], [], false)
    | .ok tail =>
      let tailOps := if tail ≠ [] then write_response_raw_json key (.chunk tail) false 10000 else []
      (tailOps ++ write_response_raw_json key .done true 10000, [], true)
  | c :: rest, pending =>
    match incDecode pending c with
    | .error _ => ([], [], false)
    | .ok (decoded, pending') =>
      let ops := if decoded ≠ [] then write_response_raw_json key (.chunk decoded) false 10000 else []
      let r := mirrorGo key rest pending'
      (ops ++ r.1, c :: r.2.1, r.2.2)

/-- `_mirror_sse_chunks_to_redis` run from the fresh decoder state. -/
def mirrorRun (key : String) (chunks : List Bytes) : List RedisOp × List Bytes × Bool :=
  mirrorGo key chunks []

/-! ### `app/proxy_http.py` lines 117-122: mirroring activation -/

/-- The condition of `proxy_http` lines 118-121 under which the response
stream iterator is replaced by the mirroring wrapper: the literal nested
`if`s of the source. -/
def mirror_enabled (incoming_path : String) (stream_qp : Option String)
    (redis_configured : Bool) (stream_key : Option String) : Bool :=
  if incoming_path = "/v1/responses" ∧ stream_qp = some "true" then
    if redis_configured ∧ pyTruthy stream_key then true else false
  else false

/-- The Redis operations performed while serving the response body, and the
bytes delivered to the client (`proxy_http` lines 117-130): the mirror's when
mirroring is enabled, otherwise the plain `r.aiter_raw()` pass-through with no
log access at all. -/
def response_serving (incoming_path : String) (stream_qp : Option String)
    (redis_configured : Bool) (stream_key : Option String)
    (chunks : List Bytes) : List RedisOp × List Bytes :=
  if mirror_enabled incoming_path stream_qp redis_configured stream_key then
    let r := mirrorRun (stream_key.getD "") chunks
    (r.1, r.2.1)
  else ([], chunks)

/-! ### `app/shiff.py`: the model sniffer

The two byte regexes are embedded as explicit first-match scanners:
`_JSON_MODEL_RE = rb'"model"\s*:\s*"([^"\\]+)"'` and
`_MP_MODEL_RE = rb'name="model"\r\n\r\n([^\r\n]+)'`.  The extracted value is
kept as raw bytes (the source's `.decode("utf-8", "ignore")` only converts it
to `str`). -/

/-- ASCII encoding of a literal (all source literals are ASCII). -/
def bytesOfAscii (s : String) : Bytes := s.data.map Char.toNat

/-- Python regex byte class `\s`: space, tab, newline, carriage return,
vertical tab, form feed. -/
def isWsByte (b : Nat) : Bool :=
  b = 32 ∨ b = 9 ∨ b = 10 ∨ b = 13 ∨ b = 11 ∨ b = 12

/-- Greedy `\s*`: skip the maximal whitespace run. -/
def skipWsBytes : Bytes → Bytes
  | [] => []
  | b :: t => if isWsByte b then skipWsBytes t else b :: t

/-- Greedy `[^"\\]+` body: the maximal run of bytes that are neither `"` (34)
nor `\` (92), and the remainder. -/
def takeValueRun : Bytes → Bytes × Bytes
  | [] => ([], [])
  | b :: t =>
    if b = 34 ∨ b = 92 then ([], b :: t)
    else
      let r := takeValueRun t
      (b :: r.1, r.2)

/-- Greedy `[^\r\n]+` body: the maximal run of bytes that are neither CR (13)
nor LF (10), and the remainder. -/
def takeLineRun : Bytes → Bytes × Bytes
  | [] => ([], [])
  | b :: t =>
    if b = 13 ∨ b = 10 then ([], b :: t)
    else
      let r := takeLineRun t
      (b :: r.1, r.2)

/-- The literal `"model"` (with its double quotes) as bytes. -/
def litJson : Bytes := bytesOfAscii "\"model\""

/-- The literal `name="model"\r\n\r\n` as bytes. -/
def litMp : Bytes := bytesOfAscii "name=\"model\"\r\n\r\n"

/-- Expect one literal byte at the head, returning the remainder. -/
def expectByte (b : Nat) : Bytes → Option Bytes
  | [] => none
  | c :: r => if c = b then some r else none

/-- Match `_JSON_MODEL_RE` anchored at the start of `bs`, returning the
captured group: literal `"model"`, `\s*`, `:` (58), `\s*`, `"` (34), a
nonempty `[^"\\]+` capture, closing `"`. -/
def matchJsonAt (bs : Bytes) : Option Bytes :=
  if litJson.isPrefixOf bs then
    (expectByte 58 (skipWsBytes (bs.drop litJson.length))).bind fun r3 =>
      (expectByte 34 (skipWsBytes r3)).bind fun r5 =>
        if (takeValueRun r5).1 ≠ [] then
          (expectByte 34 (takeValueRun r5).2).map (fun _ => (takeValueRun r5).1)
        else none
  else none

/-- `re.search` with `_JSON_MODEL_RE`: the leftmost position at which the
anchored match succeeds. -/
def searchJson : Bytes → Option Bytes
  | [] => none
  | b :: t =>
    match matchJsonAt (b :: t) with
    | some v => some v
    | none => searchJson t

/-- Match `_MP_MODEL_RE` anchored at the start of `bs`: the literal, then a
nonempty `[^\r\n]+` capture. -/
def matchMpAt (bs : Bytes) : Option Bytes :=
  if litMp.isPrefixOf bs then
    if (takeLineRun (bs.drop litMp.length)).1 ≠ [] then
      some (takeLineRun (bs.drop litMp.length)).1
    else none
  else none

/-- `re.search` with `_MP_MODEL_RE`. -/
def searchMp : Bytes → Option Bytes
  | [] => none
  | b :: t =>
    match matchMpAt (b :: t) with
    | some v => some v
    | none => searchMp t

/-- Python `.strip()` on the captured multipart value, at byte level. -/
def stripBytes (v : Bytes) : Bytes :=
  ((v.dropWhile isWsByte).reverse.dropWhile isWsByte).reverse

/-- The prefix-buffer model extractor of `app/shiff.py` (lines 51-59, with a
`_buf` suffix added to the source's name here);
`content_type` is already lowercased by the caller (line 27). -/
def _extract_model_from_prefix_buf (prefix_ : Bytes) (content_type : String) : Option Bytes :=
  if pyContains content_type "application/json" ∨ pyEndsWith content_type "+json" then
    searchJson prefix_
  else if pyContains content_type "multipart/form-data" then
    (searchMp prefix_).map stripBytes
  else searchJson prefix_

/-- Python truthiness of the extraction result (`if model:` / `if not model:`):
`None` and the empty string are falsy. -/
def foundModel : Option Bytes → Bool
  | none => false
  | some v => v ≠ []

/-- The `async for chunk in aiter` loop of `sniff_model_and_stream`
(`app/shiff.py` lines 32-41), recursing over the remaining chunks with the
accumulated `seen_chunks` and `prefix` buffers.  Returns the final
`(model, seen_chunks, unconsumed chunks, prefix)`. -/
def sniffLoop (ct : String) (limit : Nat) :
    List Bytes → List Bytes → Bytes → Option Bytes × List Bytes × List Bytes × Bytes
  | [], seen, pfx => (none, seen, [], pfx)
  | c :: rest, seen, pfx =>
    if c = [] then sniffLoop ct limit rest seen pfx
    else
      let seen' := seen ++ [c]
      let pfx' := if pfx.length < limit then pfx ++ c.take (limit - pfx.length) else pfx
      let m := _extract_model_from_prefix_buf pfx' ct
      if foundModel m then (m, seen', rest, pfx')
      else if limit ≤ pfx'.length then (m, seen', rest, pfx')
      else sniffLoop ct limit rest seen' pfx'

/-- The `ValueError` message of `sniff_model_and_stream`. -/
def sniffErrMsg : String :=
  "Model is not found in request body (sniff limit exceeded or missing)."

/-- The body-sniffing branch of `sniff_model_and_stream` (lines 26-49): run
the loop from empty buffers; on a truthy model return it together with the
reconstructed body (`seen_chunks` then the unconsumed remainder), otherwise
raise `ValueError` (modelled as `Except.error`). -/
def sniff_body (ct : String) (limit : Nat) (chunks : List Bytes) :
    Except String (Bytes × List Bytes) :=
  match sniffLoop ct limit chunks [] [] with
  | (m, seen, rest, _) =>
    match m with
    | some v => if v ≠ [] then .ok (v, seen ++ rest) else .error sniffErrMsg
    | none => .error sniffErrMsg

/-- `sniff_model_and_stream` from `app/shiff.py` (lines 19-49): a truthy
`?model=` query parameter short-circuits with the body passed through
unchanged; otherwise the body is sniffed. -/
def sniff_model_and_stream (qp_model : Option Bytes) (ct : String) (limit : Nat)
    (chunks : List Bytes) : Except String (Bytes × List Bytes) :=
  match qp_model with
  | some m => if m ≠ [] then .ok (m, chunks) else sniff_body ct limit chunks
  | none => sniff_body ct limit chunks

/-- The default of `sniff_limit()` (`API_SNIFF_BYTES`). -/
def SNIFF_BYTES_default : Nat := 1048576

/-- The sniffing step of `route_and_proxy` (`app/routers/proxy.py` lines
38-42): a `ValueError` from the sniffer becomes
`openai_error(400, str(e), code="model_not_found")`. -/
def route_sniff (res : Except String (Bytes × List Bytes)) :
    Except ErrResp (Bytes × List Bytes) :=
  match res with
  | .error e => .error (openai_error 400 e "invalid_request_error" (some "model_not_found"))
  | .ok x => .ok x

/-! ## Theorems -/

/-! ### Shared list lemmas -/

/-- An infix of an append is an infix of one side or spans the boundary. -/
theorem infixAppendCases {α : Type} {p a b : List α} (h : p <:+: a ++ b) :
    p <:+: a ∨ p <:+: b ∨
      ∃ u v, p = u ++ v ∧ u ≠ [] ∧ v ≠ [] ∧ u <:+ a ∧ v <+: b := by
  obtain ⟨s, t, hst⟩ := h
  rw [List.append_assoc] at hst
  rcases List.append_eq_append_iff.mp hst with ⟨w, hw1, hw2⟩ | ⟨w, hw1, hw2⟩
  · rcases List.append_eq_append_iff.mp hw2 with ⟨w', hv1, hv2⟩ | ⟨v, hv1, hv2⟩
    · left
      exact ⟨s, w', by rw [hw1, hv1, List.append_assoc]⟩
    · by_cases hw : w = []
      · right; left
        subst hw
        simp only [List.nil_append] at hv1
        exact ⟨[], t, by simp [hv2, hv1]⟩
      · by_cases hv : v = []
        · left
          subst hv
          rw [List.append_nil] at hv1
          exact ⟨s, [], by rw [hw1, hv1, List.append_nil]⟩
        · right; right
          exact ⟨w, v, hv1, hw, hv, ⟨s, hw1.symm⟩, ⟨t, hv2.symm⟩⟩
  · right; left
    exact ⟨w, t, by rw [hw2, List.append_assoc]⟩

/-- A nonempty prefix starts with the head of the list. -/
theorem headOfNePrefix {α : Type} {v l : List α} (h : v <+: l) (hv : v ≠ []) :
    ∃ a t t', v = a :: t ∧ l = a :: t' := by
  obtain ⟨r, hr⟩ := h
  cases v with
  | nil => exact absurd rfl hv
  | cons a t => exact ⟨a, t, t ++ r, rfl, by rw [← hr]; rfl⟩

/-- `join_upstream_url` unfolded through `normPath` and `stripCond`. -/
theorem join_unfold (b p : String) :
    join_upstream_url b p
      = pyRstripSlash b ++
          (if stripCond (pyRstripSlash b) (normPath p) then pyDrop (normPath p) 3
           else normPath p) := rfl

/-- The normalized path always starts with a slash. -/
theorem normPath_head (p : String) : ∃ w, (normPath p).data = '/' :: w := by
  unfold normPath
  by_cases h : pyStartsWith p "/" = true
  · obtain ⟨r, hr⟩ := of_decide_eq_true h
    exact ⟨r, by simp [h, ← hr]⟩
  · simp only [h]
    exact ⟨p.data, by simp⟩

/-- An infix of a drop is an infix of the whole list. -/
theorem infixOfDrop {α : Type} {pat l : List α} {n : Nat}
    (h : pat <:+: l.drop n) : pat <:+: l := by
  obtain ⟨s, t, hs⟩ := h
  refine ⟨l.take n ++ s, t, ?_⟩
  conv_rhs => rw [← List.take_append_drop n l, ← hs]
  simp [List.append_assoc]

/-! ### Claim C2: the HTTPS→HTTP downgrade consults no host allow-list -/

/-- Claim C2 (code bug evidence): with `ALLOW_SSL_DOWNGRADE` enabled, for host
`example.com` — which is on no allow-list, the list being empty — the source's
`http_fallback_url_on_ssl_error` still produces the downgraded URL (there is
no hostname check in `app/upstream.py` at all), and `proxy_http` then performs
the retry and streams its result instead of failing with 502 `api_error`.
This is exactly the scenario `test_security_hardening.py::
test_ssl_downgrade_disallowed_for_external_host_without_allowlist` requires to
return `None`. -/
theorem C2_downgrade_ignores_allowlist :
    http_fallback_url_on_ssl_error true
        ⟨"https", "example.com", "/v1/chat/completions", "", ""⟩
        "[SSL] record layer failure"
      = some "http://example.com/v1/chat/completions" ∧
    proxy_http_send_phase "POST"
        ⟨"https", "example.com", "/v1/chat/completions", "", ""⟩
        "https://example.com" true
        (Attempt.reqError "[SSL] record layer failure") Attempt.success
      = ([⟨"https://example.com/v1/chat/completions", ReqContent.bodyStream⟩,
          ⟨"http://example.com/v1/chat/completions", ReqContent.bodyStream⟩],
         PhaseResult.streamed) := by
  exact ⟨by decide, by decide⟩

/-! ### Claim C7: the fallback retry and the missing body-buffer guard -/

/-- Claim C7 (code bug evidence): when the downgrade fallback fires for a
non-idempotent `POST` whose streamed body was never buffered (the source has
no `FALLBACK_BUFFER_BYTES` and no buffering at all), `proxy_http` does not
return 502 `unsafe_ssl_downgrade_retry`: it rebuilds the fallback request with
the very same, already-consumed `body_stream` iterator and retries.  This is
the scenario `test_proxy_http.py::
test_post_without_content_length_returns_controlled_error` requires to end in
502 with `code=unsafe_ssl_downgrade_retry`. -/
theorem C7_retry_reuses_consumed_body_stream :
    proxy_http_send_phase "POST"
        ⟨"https", "example.test", "/v1/chat/completions", "", ""⟩
        "https://example.test" true
        (Attempt.reqError "[SSL] record layer failure") Attempt.success
      = ([⟨"https://example.test/v1/chat/completions", ReqContent.bodyStream⟩,
          ⟨"http://example.test/v1/chat/completions", ReqContent.bodyStream⟩],
         PhaseResult.streamed) ∧
    (∀ method url base allow first second,
      (proxy_http_send_phase method url base allow first second).1.length ≤ 2) := by
  refine ⟨by decide, ?_⟩
  intro method url base allow first second
  unfold proxy_http_send_phase
  cases first <;> simp only []
  · simp
  · simp
  · cases http_fallback_url_on_ssl_error allow url _ <;> simp only []
    · simp
    · cases second <;> simp

/-! ### Claim C8: startup fails on `AUTH_REQUIRED` with empty `BEARER_TOKEN` -/

/-- Claim C8 (spec-modelled): with environment `API_AUTH_REQUIRED=1` and
`API_BEARER_TOKEN=""`, the source's `auth_required()` parses to `True`,
`bearer_token()` to the empty string, and the (spec-modelled) `lifespan`
startup aborts with an error instead of serving. -/
theorem C8_startup_fails_on_empty_token :
    auth_required (some "1") = true ∧
    bearer_token (some "") = "" ∧
    lifespan_startup (some "1") (some "")
      = .error "API_AUTH_REQUIRED is set but API_BEARER_TOKEN is empty" := by
  exact ⟨by decide, by decide, rfl⟩

/-! ### Claim C6: the URL normalizer -/

/-- Claim C6 counterexample: the claim's "never emits a doubled `/v1/v1`
segment" fails as stated — joining base `http://h/v1` with the path `/v1`
(which does not start with `/v1/`, so no stripping occurs) yields
`http://h/v1/v1`, which contains `/v1/v1`. -/
theorem C6_counterexample :
    join_upstream_url "http://h/v1" "/v1" = "http://h/v1/v1" ∧
    "/v1/v1".data <:+: (join_upstream_url "http://h/v1" "/v1").data := by
  exact ⟨by decide, by decide⟩

/-- Claim C6 (amended): `join` strips trailing slashes from the base, forces a
leading slash on the path, and strips the path's leading `/v1` exactly when
the stripped base ends in `/v1` or `/v1/openai` and the path starts with
`/v1/`; the stripped base is always a prefix of the result (so a `/v1/openai`
suffix is never dropped) and the `/v1/openai` example joins as specified.
Provided neither the stripped base nor the normalized path contains `/v1/v1`,
and provided that whenever the stripped base ends in `/v1` and the normalized
path starts with `/v1` the path continues with a slash (as every `/v1/...`
API route does), the result contains no `/v1/v1`. -/
theorem C6_join_upstream_url_amended (base_url path : String)
    (H1 : ¬ ("/v1/v1".data <:+: (pyRstripSlash base_url).data))
    (H2 : ¬ ("/v1/v1".data <:+: (normPath path).data))
    (H3 : pyEndsWith (pyRstripSlash base_url) "/v1" = true →
      pyStartsWith (normPath path) "/v1" = true →
      pyStartsWith (normPath path) "/v1/" = true) :
    (stripCond (pyRstripSlash base_url) (normPath path) = true →
      join_upstream_url base_url path
        = pyRstripSlash base_url ++ pyDrop (normPath path) 3) ∧
    (stripCond (pyRstripSlash base_url) (normPath path) = false →
      join_upstream_url base_url path = pyRstripSlash base_url ++ normPath path) ∧
    (pyRstripSlash base_url).data <+: (join_upstream_url base_url path).data ∧
    (pyEndsWith (pyRstripSlash base_url) "/v1/openai" = true →
      "/v1/openai".data <:+: (join_upstream_url base_url path).data) ∧
    ¬ ("/v1/v1".data <:+: (join_upstream_url base_url path).data) ∧
    join_upstream_url "https://x/v1/openai" "/v1/chat/completions"
      = "https://x/v1/openai/chat/completions" := by
  set B := pyRstripSlash base_url with hB
  set P0 := normPath path with hP0
  have hjoin := join_unfold base_url path
  have hpart : ∃ part : String, join_upstream_url base_url path = B ++ part ∧
      ((stripCond B P0 = true ∧ part = pyDrop P0 3) ∨
       (stripCond B P0 = false ∧ part = P0)) := by
    by_cases hc : stripCond B P0 = true
    · exact ⟨pyDrop P0 3, by rw [hjoin, if_pos hc], Or.inl ⟨hc, rfl⟩⟩
    · refine ⟨P0, by rw [hjoin, if_neg hc], Or.inr ⟨by simpa using hc, rfl⟩⟩
  obtain ⟨part, hjp, hcase⟩ := hpart
  have hprefix : B.data <+: (join_upstream_url base_url path).data := by
    rw [hjp]
    exact ⟨part.data, by simp⟩
  have hpartHead : ∃ w, part.data = '/' :: w := by
    obtain ⟨w0, hw0⟩ := normPath_head path
    rcases hcase with ⟨hc, hpt⟩ | ⟨hc, hpt⟩
    · have hstart : pyStartsWith P0 "/v1/" = true := by
        have := hc
        unfold stripCond at this
        exact (Bool.and_eq_true .. ▸ this).2
      obtain ⟨r, hr⟩ := of_decide_eq_true hstart
      subst hpt
      refine ⟨r, ?_⟩
      show (P0.data.drop 3) = '/' :: r
      rw [← hr]
      rfl
    · subst hpt
      rw [← hP0] at hw0
      exact ⟨w0, hw0⟩
  have hnodouble : ¬ ("/v1/v1".data <:+: (join_upstream_url base_url path).data) := by
    intro hin
    rw [hjp] at hin
    have hin' : "/v1/v1".data <:+: B.data ++ part.data := by
      simpa using hin
    rcases infixAppendCases hin' with hA | hA | ⟨u, v, huv, hu, hv, husfx, hvpfx⟩
    · exact H1 hA
    · rcases hcase with ⟨hc, hpt⟩ | ⟨hc, hpt⟩
      · subst hpt
        exact H2 (infixOfDrop hA)
      · subst hpt
        exact H2 hA
    · obtain ⟨w, hw⟩ := hpartHead
      obtain ⟨a, t, t', hva, hpa⟩ := headOfNePrefix hvpfx hv
      rw [hw] at hpa
      have hahead : a = '/' := by
        exact (List.cons.injEq .. ▸ hpa).1.symm
      have hlen : u.length + v.length = 6 := by
        have := congrArg List.length huv
        simpa using this.symm
      have hvdrop : v = ("/v1/v1".data).drop u.length := by
        rw [huv]
        simp
      have hul1 : 1 ≤ u.length := by
        cases u with
        | nil => exact absurd rfl hu
        | cons x xs => simp
      have hul5 : u.length ≤ 5 := by
        cases v with
        | nil => exact absurd rfl hv
        | cons x xs => simp at hlen; omega
      have hu3 : u.length = 3 := by
        rw [hva, hahead] at hvdrop
        interval_cases h : u.length
        · exact absurd hvdrop (by simp)
        · exact absurd hvdrop (by simp)
        · rfl
        · exact absurd hvdrop (by simp)
        · exact absurd hvdrop (by simp)
      have hu' : u = ['/', 'v', '1'] := by
        have : u = ("/v1/v1".data).take u.length := by
          rw [huv]; simp
        rw [hu3] at this
        exact this
      have hv' : v = ['/', 'v', '1'] := by
        rw [hvdrop, hu3]
        rfl
      have hends : pyEndsWith B "/v1" = true := by
        apply decide_eq_true
        show ("/v1").data <:+ B.data
        rw [show ("/v1").data = ['/', 'v', '1'] from rfl]
        rw [← hu']
        exact husfx
      rcases hcase with ⟨hc, hpt⟩ | ⟨hc, hpt⟩
      · -- strip case: the path itself must contain /v1/v1
        subst hpt
        have hstart : pyStartsWith P0 "/v1/" = true := by
          have := hc
          unfold stripCond at this
          exact (Bool.and_eq_true .. ▸ this).2
        obtain ⟨r0, hr0⟩ := of_decide_eq_true hstart
        have hdrop3 : (pyDrop P0 3).data = '/' :: r0 := by
          show P0.data.drop 3 = '/' :: r0
          rw [← hr0]
          rfl
        obtain ⟨rr, hrr⟩ := hvpfx
        rw [hv', hdrop3] at hrr
        have hr0rr : r0 = 'v' :: '1' :: rr := by
          simp only [List.cons_append, List.nil_append] at hrr
          injection hrr with _ h3
          exact h3.symm
        apply H2
        refine ⟨[], rr, ?_⟩
        rw [← hr0, hr0rr]
        rfl
      · -- non-strip case: H3 forces the strip condition after all
        subst hpt
        have hstarts : pyStartsWith P0 "/v1" = true := by
          apply decide_eq_true
          show ("/v1").data <+: P0.data
          rw [show ("/v1").data = ['/', 'v', '1'] from rfl, ← hv']
          exact hvpfx
        have hstart' := H3 hends hstarts
        have : stripCond B P0 = true := by
          unfold stripCond
          rw [hends, hstart']
          rfl
        rw [this] at hc
        exact absurd hc (by simp)
  refine ⟨?_, ?_, hprefix, ?_, hnodouble, by decide⟩
  · intro hc
    rw [hjoin, if_pos hc]
  · intro hc
    rw [hjoin, if_neg (by simp [hc])]
  · intro hend
    obtain ⟨s, hs⟩ := of_decide_eq_true hend
    obtain ⟨r, hr⟩ := hprefix
    exact ⟨s, r, by rw [← hr, ← hs]⟩

/-- Witness for `C6_join_upstream_url_amended` at the spec's own example:
base `https://x/v1/openai`, incoming `/v1/chat/completions`. -/
theorem C6_join_upstream_url_amended_witness :
    (¬ ("/v1/v1".data <:+: (pyRstripSlash "https://x/v1/openai").data)) ∧
    (¬ ("/v1/v1".data <:+: (normPath "/v1/chat/completions").data)) ∧
    (¬ ("/v1/v1".data <:+:
        (join_upstream_url "https://x/v1/openai" "/v1/chat/completions").data)) ∧
    join_upstream_url "https://x/v1/openai" "/v1/chat/completions"
      = "https://x/v1/openai/chat/completions" :=
  ⟨by decide, by decide,
    (C6_join_upstream_url_amended "https://x/v1/openai" "/v1/chat/completions"
      (by decide) (by decide) (by decide)).2.2.2.2.1,
    (C6_join_upstream_url_amended "https://x/v1/openai" "/v1/chat/completions"
      (by decide) (by decide) (by decide)).2.2.2.2.2⟩

/-! ### Claim C1: upstream header filtering -/

/-- Membership after a dict assignment: the old entries or the new pair. -/
theorem mem_dictSet {d : List (String × String)} {k v : String}
    {p : String × String} (h : p ∈ dictSet d k v) : p ∈ d ∨ p = (k, v) := by
  unfold dictSet at h
  split at h
  · rcases List.mem_map.mp h with ⟨q, hq, hqe⟩
    by_cases hk : q.1 = k
    · right
      rw [if_pos hk] at hqe
      exact hqe.symm
    · left
      rw [if_neg hk] at hqe
      exact hqe ▸ hq
  · rcases List.mem_append.mp h with hq | hq
    · exact Or.inl hq
    · right
      simpa using hq

/-- Looking up the key just assigned. -/
theorem dictGet_dictSet_self {d : List (String × String)} {k v : String} :
    dictGet (dictSet d k v) k = some v := by
  unfold dictSet dictGet
  split
  · rename_i hex
    induction d with
    | nil => simp at hex
    | cons q d ih =>
      by_cases hk : q.1 = k
      · simp [List.find?_cons, hk]
      · have hex' : d.any (fun p => decide (p.1 = k)) = true := by
          rcases List.any_eq_true.mp hex with ⟨x, hx, hxk⟩
          rcases List.mem_cons.mp hx with rfl | hx'
          · exact absurd (of_decide_eq_true hxk) hk
          · exact List.any_eq_true.mpr ⟨x, hx', hxk⟩
        simpa [List.find?_cons, hk] using ih hex'
  · rename_i hex
    have hnone : d.find? (fun p => decide (p.1 = k)) = none := by
      rw [List.find?_eq_none]
      intro q hq
      by_contra hqk
      exact hex (List.any_eq_true.mpr ⟨q, hq, by simpa using hqk⟩)
    simp [List.find?_append, hnone]

/-- Overwriting the entries keyed `k'` does not change a `find?` for a
different key `k`. -/
theorem find?_map_overwrite {k k' v' : String} (h : k ≠ k') (d : List (String × String)) :
    List.find? (fun p => p.1 = k) (d.map (fun p => if p.1 = k' then (k', v') else p))
      = List.find? (fun p => p.1 = k) d := by
  induction d with
  | nil => rfl
  | cons q d ih =>
    simp only [List.map_cons]
    by_cases hq' : q.1 = k'
    · rw [if_pos hq']
      by_cases hqk : q.1 = k
      · exact absurd (by rw [← hqk, hq']) h
      · have e1 : List.find? (fun p => p.1 = k)
            ((k', v') :: List.map (fun p => if p.1 = k' then (k', v') else p) d)
            = List.find? (fun p => p.1 = k)
                (List.map (fun p => if p.1 = k' then (k', v') else p) d) :=
          List.find?_cons_of_neg _ (by simp; exact fun hh => h hh.symm)
        have e2 : List.find? (fun p => p.1 = k) (q :: d)
            = List.find? (fun p => p.1 = k) d :=
          List.find?_cons_of_neg _ (by simpa using hqk)
        rw [e1, e2]
        exact ih
    · rw [if_neg hq']
      by_cases hqk : q.1 = k
      · have e1 : List.find? (fun p => p.1 = k)
            (q :: List.map (fun p => if p.1 = k' then (k', v') else p) d)
            = some q :=
          List.find?_cons_of_pos _ (by simpa using hqk)
        have e2 : List.find? (fun p => p.1 = k) (q :: d) = some q :=
          List.find?_cons_of_pos _ (by simpa using hqk)
        rw [e1, e2]
      · have e1 : List.find? (fun p => p.1 = k)
            (q :: List.map (fun p => if p.1 = k' then (k', v') else p) d)
            = List.find? (fun p => p.1 = k)
                (List.map (fun p => if p.1 = k' then (k', v') else p) d) :=
          List.find?_cons_of_neg _ (by simpa using hqk)
        have e2 : List.find? (fun p => p.1 = k) (q :: d)
            = List.find? (fun p => p.1 = k) d :=
          List.find?_cons_of_neg _ (by simpa using hqk)
        rw [e1, e2]
        exact ih

/-- Assigning one key leaves lookups of a different key unchanged. -/
theorem dictGet_dictSet_other {d : List (String × String)} {k k' v' : String}
    (h : k ≠ k') : dictGet (dictSet d k' v') k = dictGet d k := by
  unfold dictSet dictGet
  split
  · rw [find?_map_overwrite h]
  · have hkv : ¬ ((k', v') : String × String).1 = k := fun hh => h hh.symm
    simp [List.find?_append, hkv]

/-- A successful lookup comes from a member with that key. -/
theorem dictGet_mem {d : List (String × String)} {k v : String}
    (h : dictGet d k = some v) : ∃ p ∈ d, p.1 = k ∧ p.2 = v := by
  unfold dictGet at h
  rcases ho : d.find? (fun p => decide (p.1 = k)) with _ | q
  · rw [ho] at h; simp at h
  · rw [ho] at h
    refine ⟨q, List.mem_of_find?_eq_some ho, ?_, by simpa using h⟩
    have := List.find?_some ho
    simpa using this

/-- A header pair that survives the copying loop of `_filtered_headers`. -/
def hdrOk (p : String × String) : Prop :=
  HOP_BY_HOP.contains (pyLower p.1) = false ∧ pyLower p.1 ≠ "authorization"

/-- Every entry of the copying fold of `_filtered_headers` is neither
hop-by-hop nor an authorization header. -/
theorem filtered_fold_ok (l : List (String × String)) :
    ∀ acc, (∀ p ∈ acc, hdrOk p) →
      ∀ p ∈ l.foldl
        (fun acc kv =>
          let lk := pyLower kv.1
          if HOP_BY_HOP.contains lk then acc
          else if lk = "authorization" then acc
          else dictSet acc kv.1 kv.2) acc, hdrOk p := by
  induction l with
  | nil => intro acc hacc p hp; exact hacc p hp
  | cons kv l ih =>
    intro acc hacc p hp
    rw [List.foldl_cons] at hp
    by_cases h1 : HOP_BY_HOP.contains (pyLower kv.1) = true
    · rw [if_pos h1] at hp
      exact ih acc hacc p hp
    · rw [if_neg h1] at hp
      by_cases h2 : pyLower kv.1 = "authorization"
      · rw [if_pos h2] at hp
        exact ih acc hacc p hp
      · rw [if_neg h2] at hp
        refine ih (dictSet acc kv.1 kv.2) ?_ p hp
        intro q hq
        rcases mem_dictSet hq with hq' | rfl
        · exact hacc q hq'
        · exact ⟨by simpa using h1, h2⟩

/-- Claim C1: the upstream header map built by `_filtered_headers` contains no
hop-by-hop header; it contains an authorization header exactly when
`upstream.api_key` is nonempty, in which case the only authorization entry is
`Authorization: Bearer <api_key>` (in particular the incoming `Authorization`
never survives); and `X-Proxy-Model` is always set to `upstream.model`. -/
theorem C1_filtered_headers (reqHeaders : List (String × String))
    (api_key model : String) :
    (∀ p ∈ _filtered_headers reqHeaders api_key model,
      HOP_BY_HOP.contains (pyLower p.1) = false) ∧
    ((∃ p ∈ _filtered_headers reqHeaders api_key model,
      pyLower p.1 = "authorization") ↔ api_key ≠ "") ∧
    (api_key ≠ "" →
      dictGet (_filtered_headers reqHeaders api_key model) "Authorization"
        = some ("Bearer " ++ api_key)) ∧
    (∀ p ∈ _filtered_headers reqHeaders api_key model,
      pyLower p.1 = "authorization" → p = ("Authorization", "Bearer " ++ api_key)) ∧
    dictGet (_filtered_headers reqHeaders api_key model) "X-Proxy-Model"
      = some model := by
  have hfold := filtered_fold_ok reqHeaders [] (by intro p hp; simp at hp)
  have hxl : pyLower "X-Proxy-Model" = "x-proxy-model" := by decide
  have hal : pyLower "Authorization" = "authorization" := by decide
  have hmem : ∀ p ∈ _filtered_headers reqHeaders api_key model,
      hdrOk p ∨ (api_key ≠ "" ∧ p = ("Authorization", "Bearer " ++ api_key)) ∨
        p = ("X-Proxy-Model", model) := by
    intro p hp
    simp only [_filtered_headers] at hp
    rcases mem_dictSet hp with hp' | rfl
    · by_cases hk : api_key ≠ ""
      · rw [if_pos hk] at hp'
        rcases mem_dictSet hp' with hp'' | rfl
        · exact Or.inl (hfold p hp'')
        · exact Or.inr (Or.inl ⟨hk, rfl⟩)
      · rw [if_neg hk] at hp'
        exact Or.inl (hfold p hp')
    · exact Or.inr (Or.inr rfl)
  have hauth : api_key ≠ "" →
      dictGet (_filtered_headers reqHeaders api_key model) "Authorization"
        = some ("Bearer " ++ api_key) := by
    intro hk
    simp only [_filtered_headers]
    rw [if_pos hk]
    rw [dictGet_dictSet_other (by decide)]
    exact dictGet_dictSet_self
  refine ⟨?_, ⟨?_, ?_⟩, hauth, ?_, ?_⟩
  · intro p hp
    rcases hmem p hp with hok | ⟨_, rfl⟩ | rfl
    · exact hok.1
    · exact (by decide : HOP_BY_HOP.contains (pyLower "Authorization") = false)
    · exact (by decide : HOP_BY_HOP.contains (pyLower "X-Proxy-Model") = false)
  · rintro ⟨p, hp, hpl⟩
    rcases hmem p hp with hok | ⟨hk, rfl⟩ | rfl
    · exact absurd hpl hok.2
    · exact hk
    · exact absurd hpl (by decide : ¬ pyLower "X-Proxy-Model" = "authorization")
  · intro hk
    obtain ⟨p, hp, hp1, _⟩ := dictGet_mem (hauth hk)
    exact ⟨p, hp, by rw [hp1, hal]⟩
  · intro p hp hpl
    rcases hmem p hp with hok | ⟨_, rfl⟩ | rfl
    · exact absurd hpl hok.2
    · rfl
    · exact absurd hpl (by decide : ¬ pyLower "X-Proxy-Model" = "authorization")
  · simp only [_filtered_headers]
    exact dictGet_dictSet_self

/-- Witness for `C1_filtered_headers` at the request of
`test_proxy_http.py::test_filtered_headers_contract`. -/
theorem C1_filtered_headers_witness :
    ("upstream-key" : String) ≠ "" ∧
    dictGet (_filtered_headers
        [("authorization", "Bearer user"), ("connection", "keep-alive"), ("x-custom", "ok")]
        "upstream-key" "model-a") "Authorization" = some "Bearer upstream-key" ∧
    dictGet (_filtered_headers
        [("authorization", "Bearer user"), ("connection", "keep-alive"), ("x-custom", "ok")]
        "upstream-key" "model-a") "X-Proxy-Model" = some "model-a" :=
  ⟨by decide,
    (C1_filtered_headers
      [("authorization", "Bearer user"), ("connection", "keep-alive"), ("x-custom", "ok")]
      "upstream-key" "model-a").2.2.1 (by decide),
    (C1_filtered_headers
      [("authorization", "Bearer user"), ("connection", "keep-alive"), ("x-custom", "ok")]
      "upstream-key" "model-a").2.2.2.2⟩

/-! ### Claim C10: when SSE mirroring is active -/

/-- Python truthiness of an optional string, characterized. -/
theorem pyTruthy_iff (o : Option String) :
    pyTruthy o = true ↔ ∃ s, o = some s ∧ s ≠ "" := by
  cases o <;> simp [pyTruthy]

/-- Claim C10: mirroring is enabled exactly when the path is `/v1/responses`,
the `stream` query parameter equals `"true"`, a Redis stream client is
configured, and a nonempty `x-stream-key` header is present; in every other
case the response is served as the plain pass-through with no Redis operation
at all. -/
theorem C10_mirror_activation (incoming_path : String) (stream_qp : Option String)
    (redis_configured : Bool) (stream_key : Option String) (chunks : List Bytes) :
    (mirror_enabled incoming_path stream_qp redis_configured stream_key = true ↔
      incoming_path = "/v1/responses" ∧ stream_qp = some "true" ∧
      redis_configured = true ∧ ∃ s, stream_key = some s ∧ s ≠ "") ∧
    (mirror_enabled incoming_path stream_qp redis_configured stream_key = false →
      response_serving incoming_path stream_qp redis_configured stream_key chunks
        = ([], chunks)) := by
  constructor
  · constructor
    · intro h
      unfold mirror_enabled at h
      split at h
      · rename_i h1
        split at h
        · rename_i h2
          exact ⟨h1.1, h1.2, h2.1, (pyTruthy_iff _).mp h2.2⟩
        · exact absurd h (by simp)
      · exact absurd h (by simp)
    · rintro ⟨hp, hq, hr, s, hs, hne⟩
      unfold mirror_enabled
      rw [if_pos ⟨hp, hq⟩, if_pos ⟨hr, (pyTruthy_iff _).mpr ⟨s, hs, hne⟩⟩]
  · intro h
    unfold response_serving
    simp [h]

/-- Witness for `C10_mirror_activation`: a `/v1/chat/completions` response is
served untouched even with a stream key and Redis configured. -/
theorem C10_mirror_activation_witness :
    mirror_enabled "/v1/chat/completions" (some "true") true (some "k") = false ∧
    response_serving "/v1/chat/completions" (some "true") true (some "k") [[104, 105]]
      = ([], [[104, 105]]) :=
  ⟨by decide,
    (C10_mirror_activation "/v1/chat/completions" (some "true") true (some "k")
      [[104, 105]]).2 (by decide)⟩

/-! ### Claim C9: the token bucket -/

/-- The capacity is nonnegative for nonnegative configuration. -/
theorem bucketCap_nonneg {rps burst : Int} (hrps : 0 < rps) (hburst : 0 ≤ burst) :
    0 ≤ bucketCap rps burst := by
  unfold bucketCap
  split
  · exact_mod_cast hburst
  · exact_mod_cast le_of_lt hrps

/-- `rateLimitStep` in closed form. -/
theorem rateLimitStep_eq (rps burst : Int) (now : ℚ) (b : Bucket) :
    rateLimitStep rps burst now b =
      if min (bucketCap rps burst) (b.tokens + (now - b.last) * (rps : ℚ)) < 1 then
        (false, ⟨now, min (bucketCap rps burst) (b.tokens + (now - b.last) * (rps : ℚ))⟩)
      else
        (true, ⟨now, min (bucketCap rps burst) (b.tokens + (now - b.last) * (rps : ℚ)) - 1⟩) :=
  rfl

/-- The bucket invariant `0 ≤ tokens ≤ cap` is preserved by any monotone
sequence of request instants. -/
theorem runBucket_inv (rps burst : Int) (hrps : 0 < rps) (hburst : 0 ≤ burst) :
    ∀ (times : List ℚ) (b : Bucket), List.Chain (· ≤ ·) b.last times →
      0 ≤ b.tokens → b.tokens ≤ bucketCap rps burst →
      0 ≤ (times.foldl (fun b t => (rateLimitStep rps burst t b).2) b).tokens ∧
      (times.foldl (fun b t => (rateLimitStep rps burst t b).2) b).tokens
        ≤ bucketCap rps burst := by
  intro times
  induction times with
  | nil => exact fun b _ h0 hc => ⟨h0, hc⟩
  | cons t rest ih =>
    intro b hch h0 hc
    rw [List.foldl_cons]
    cases hch with
    | cons hle hch' =>
      have hcap := bucketCap_nonneg hrps hburst
      have hrefill0 : 0 ≤ min (bucketCap rps burst) (b.tokens + (t - b.last) * (rps : ℚ)) := by
        apply le_min hcap
        have : 0 ≤ (t - b.last) * (rps : ℚ) := by
          apply mul_nonneg (by linarith)
          exact_mod_cast le_of_lt hrps
        linarith
      have hrefillc : min (bucketCap rps burst) (b.tokens + (t - b.last) * (rps : ℚ))
          ≤ bucketCap rps burst := min_le_left _ _
      rw [rateLimitStep_eq]
      by_cases hlt : min (bucketCap rps burst) (b.tokens + (t - b.last) * (rps : ℚ)) < 1
      · rw [if_pos hlt]
        exact ih _ hch' hrefill0 hrefillc
      · rw [if_neg hlt]
        push_neg at hlt
        refine ih _ hch' (by simp only []; linarith) (by simp only []; linarith)

/-- Claim C9: with the limiter enabled (`rps > 0`) and a sane burst
(`burst ≥ 0`), every reachable bucket satisfies `0 ≤ tokens ≤ capacity` where
the capacity is `burst` (or `rps` when `burst` is 0/unset); a request is
rejected — 429 `rate_limit_error`, tokens kept — exactly when the refilled
tokens `min(cap, tokens + (now-last)·rps)` are below 1, and otherwise exactly
one token is consumed; `rps ≤ 0` disables the limiter entirely, leaving the
bucket untouched. -/
theorem C9_token_bucket (rps burst : Int) (hrps : 0 < rps) (hburst : 0 ≤ burst) :
    (∀ times : List ℚ, List.Chain (· ≤ ·) 0 times →
      0 ≤ (runBucket rps burst times).tokens ∧
      (runBucket rps burst times).tokens ≤ bucketCap rps burst) ∧
    (∀ (now : ℚ) (b : Bucket),
      ((rateLimitStep rps burst now b).1 = false ↔
        min (bucketCap rps burst) (b.tokens + (now - b.last) * (rps : ℚ)) < 1) ∧
      ((rateLimitStep rps burst now b).1 = true →
        (rateLimitStep rps burst now b).2.tokens
          = min (bucketCap rps burst) (b.tokens + (now - b.last) * (rps : ℚ)) - 1) ∧
      ((rateLimitStep rps burst now b).1 = false →
        rate_limit_call rps burst "http" now b
          = (some ⟨429, "rate_limit_error", none, "Too Many Requests"⟩,
             (rateLimitStep rps burst now b).2))) ∧
    (∀ (rps' : Int) (st : String) (now : ℚ) (b : Bucket), rps' ≤ 0 →
      rate_limit_call rps' burst st now b = (none, b)) := by
  refine ⟨?_, ?_, ?_⟩
  · intro times hch
    exact runBucket_inv rps burst hrps hburst times (bucketInit rps burst) hch
      (bucketCap_nonneg hrps hburst) le_rfl
  · intro now b
    have hstep := rateLimitStep_eq rps burst now b
    by_cases hlt : min (bucketCap rps burst) (b.tokens + (now - b.last) * (rps : ℚ)) < 1
    · rw [if_pos hlt] at hstep
      refine ⟨?_, ?_, ?_⟩
      · rw [hstep]
        simpa using hlt
      · rw [hstep]
        intro htrue
        exact absurd htrue (by simp)
      · intro _
        unfold rate_limit_call
        rw [if_neg (by omega), if_neg (by simp)]
        rw [hstep]
        rfl
    · rw [if_neg hlt] at hstep
      push_neg at hlt
      refine ⟨?_, ?_, ?_⟩
      · rw [hstep]
        constructor
        · intro hfalse
          exact absurd hfalse (by simp)
        · intro hlt'
          linarith
      · rw [hstep]
        intro _
        rfl
      · rw [hstep]
        intro hfalse
        exact absurd hfalse (by simp)
  · intro rps' st now b hle
    unfold rate_limit_call
    rw [if_pos hle]

/-- Witness for `C9_token_bucket` at `rps = 2`, `burst = 2`, three immediate
requests. -/
theorem C9_token_bucket_witness :
    (0 : Int) < 2 ∧ (0 : Int) ≤ 2 ∧
    (0 ≤ (runBucket 2 2 [0, 0, 0]).tokens ∧
      (runBucket 2 2 [0, 0, 0]).tokens ≤ bucketCap 2 2) :=
  ⟨by decide, by decide,
    (C9_token_bucket 2 2 (by decide) (by decide)).1 [0, 0, 0]
      (List.Chain.cons le_rfl (List.Chain.cons le_rfl
        (List.Chain.cons le_rfl List.Chain.nil)))⟩

/-! ### Claim C3: the sniffer reproduces the body byte-for-byte -/

/-- The sniff loop only moves chunks: the bytes of the accumulated
`seen_chunks` followed by the unconsumed remainder are exactly the starting
accumulator's bytes followed by the input bytes. -/
theorem sniffLoop_flatten (ct : String) (limit : Nat) :
    ∀ (cs seen : List Bytes) (pfx : Bytes),
      ((sniffLoop ct limit cs seen pfx).2.1).flatten
          ++ ((sniffLoop ct limit cs seen pfx).2.2.1).flatten
        = seen.flatten ++ cs.flatten := by
  intro cs
  induction cs with
  | nil => intro seen pfx; simp [sniffLoop]
  | cons c rest ih =>
    intro seen pfx
    simp only [sniffLoop]
    by_cases hc : c = []
    · rw [if_pos hc]
      rw [ih seen pfx]
      simp [hc]
    · rw [if_neg hc]
      by_cases hf : foundModel (_extract_model_from_prefix_buf
          (if pfx.length < limit then pfx ++ c.take (limit - pfx.length) else pfx) ct) = true
      · rw [if_pos hf]
        simp [List.flatten_append, List.append_assoc]
      · rw [if_neg hf]
        by_cases hl : limit ≤
            (if pfx.length < limit then pfx ++ c.take (limit - pfx.length) else pfx).length
        · rw [if_pos hl]
          simp [List.flatten_append, List.append_assoc]
        · rw [if_neg hl]
          rw [ih (seen ++ [c]) _]
          simp [List.flatten_append, List.append_assoc]

/-- `sniff_body` success reproduces the input bytes. -/
theorem sniff_body_flatten {ct : String} {limit : Nat} {chunks : List Bytes}
    {m : Bytes} {out : List Bytes}
    (h : sniff_body ct limit chunks = .ok (m, out)) :
    out.flatten = chunks.flatten := by
  unfold sniff_body at h
  rcases hloop : sniffLoop ct limit chunks [] [] with ⟨m', seen, rest, pfx⟩
  rw [hloop] at h
  have hfl := sniffLoop_flatten ct limit chunks [] []
  rw [hloop] at hfl
  simp only [List.flatten_nil, List.nil_append] at hfl
  cases m' with
  | none => simp at h
  | some v =>
    simp only [] at h
    by_cases hv : v ≠ []
    · rw [if_pos hv] at h
      have hout : out = seen ++ rest := by
        cases h
        rfl
      rw [hout, List.flatten_append]
      exact hfl
    · rw [if_neg hv] at h
      simp at h

/-- Claim C3: whenever the sniffer finds a model, the returned body iterator
reproduces the entire original body: the concatenation of its chunks equals
the concatenation of the chunks received from the client, in order, with no
loss or duplication. -/
theorem C3_sniff_reproduces_body (qp : Option Bytes) (ct : String) (limit : Nat)
    (chunks : List Bytes) (m : Bytes) (out : List Bytes)
    (h : sniff_model_and_stream qp ct limit chunks = .ok (m, out)) :
    out.flatten = chunks.flatten := by
  unfold sniff_model_and_stream at h
  cases qp with
  | none => exact sniff_body_flatten h
  | some m0 =>
    simp only [] at h
    by_cases h0 : m0 ≠ []
    · rw [if_pos h0] at h
      cases h
      rfl
    · rw [if_neg h0] at h
      exact sniff_body_flatten h

/-- Witness for `C3_sniff_reproduces_body`: a two-chunk body whose first chunk
is empty (the loop drops it from `seen_chunks`, yet the bytes agree). -/
theorem C3_sniff_reproduces_body_witness :
    sniff_model_and_stream none "application/json" 1048576
        [[], bytesOfAscii "\"model\": \"m1\""]
      = .ok (bytesOfAscii "m1", [bytesOfAscii "\"model\": \"m1\""]) ∧
    ([bytesOfAscii "\"model\": \"m1\""] : List Bytes).flatten
      = ([[], bytesOfAscii "\"model\": \"m1\""] : List Bytes).flatten :=
  ⟨by rfl,
    C3_sniff_reproduces_body none "application/json" 1048576
      [[], bytesOfAscii "\"model\": \"m1\""] (bytesOfAscii "m1")
      [bytesOfAscii "\"model\": \"m1\""] (by rfl)⟩

/-! ### Claim C4: the mirror's log-write discipline -/

/-- When the mirror completes, its Redis operations are some chunk `XADD`s in
delivery order followed by exactly the terminal `XADD {done}` and one
approximate `XTRIM 10000`. -/
theorem mirrorGo_ops (key : String) :
    ∀ (chunks : List Bytes) (pending : Bytes),
      (mirrorGo key chunks pending).2.2 = true →
      ∃ ss : List (List Char),
        (mirrorGo key chunks pending).1
          = ss.map (fun s => RedisOp.xadd key (Payload.chunk s))
              ++ [RedisOp.xadd key Payload.done, RedisOp.xtrim key 10000 true] := by
  intro chunks
  induction chunks with
  | nil =>
    intro pending hs
    rcases hf : incDecodeFinal pending with e | tail
    · have hfalse : (mirrorGo key [] pending).2.2 = false := by
        simp only [mirrorGo, hf]
      rw [hfalse] at hs
      simp at hs
    · have hgo : mirrorGo key [] pending
          = ((if tail ≠ [] then write_response_raw_json key (Payload.chunk tail) false 10000
              else []) ++ write_response_raw_json key Payload.done true 10000, [], true) := by
        simp only [mirrorGo, hf]
      rw [hgo]
      by_cases ht : tail ≠ []
      · exact ⟨[tail], by rw [if_pos ht]; rfl⟩
      · exact ⟨[], by rw [if_neg ht]; rfl⟩
  | cons c rest ih =>
    intro pending hs
    rcases hd : incDecode pending c with e | p
    · have hfalse : (mirrorGo key (c :: rest) pending).2.2 = false := by
        simp only [mirrorGo, hd]
      rw [hfalse] at hs
      simp at hs
    · rcases p with ⟨decoded, pending'⟩
      have hgo : mirrorGo key (c :: rest) pending
          = ((if decoded ≠ [] then
                write_response_raw_json key (Payload.chunk decoded) false 10000
              else []) ++ (mirrorGo key rest pending').1,
             c :: (mirrorGo key rest pending').2.1, (mirrorGo key rest pending').2.2) := by
        simp only [mirrorGo, hd]
      rw [hgo] at hs
      have hs' : (mirrorGo key rest pending').2.2 = true := hs
      obtain ⟨ss, hss⟩ := ih pending' hs'
      rw [hgo]
      by_cases hdec : decoded ≠ []
      · refine ⟨decoded :: ss, ?_⟩
        rw [if_pos hdec, hss]
        rfl
      · refine ⟨ss, ?_⟩
        rw [if_neg hdec, hss]
        rfl

/-- Claim C4 (amended): for every mirrored stream whose bytes decode as UTF-8
without error (so the generator is not aborted by `UnicodeDecodeError`), the
mirror appends `chunk` entries in delivery order and, after the upstream
iterator ends, flushes the decoder and appends exactly one `done` entry — the
last entry written — followed by exactly one `XTRIM maxlen=10000 approximate`;
no trim accompanies any intermediate chunk write. -/
theorem C4_mirror_done_last (key : String) (chunks : List Bytes)
    (h : (mirrorRun key chunks).2.2 = true) :
    (∃ ss : List (List Char),
      (mirrorRun key chunks).1
        = ss.map (fun s => RedisOp.xadd key (Payload.chunk s))
            ++ [RedisOp.xadd key Payload.done, RedisOp.xtrim key 10000 true]) ∧
    (mirrorRun key chunks).1.countP (fun op => op = RedisOp.xadd key Payload.done) = 1 ∧
    (mirrorRun key chunks).1.countP
      (fun op => match op with | RedisOp.xtrim _ _ _ => true | _ => false) = 1 ∧
    (mirrorRun key chunks).1.getLast? = some (RedisOp.xtrim key 10000 true) := by
  unfold mirrorRun at h ⊢
  obtain ⟨ss, hss⟩ := mirrorGo_ops key chunks [] h
  have hchunk1 : ∀ s : List Char,
      (fun op => decide (op = RedisOp.xadd key Payload.done))
          (RedisOp.xadd key (Payload.chunk s)) = false := by
    intro s
    simp
  refine ⟨⟨ss, hss⟩, ?_, ?_, ?_⟩
  · rw [hss, List.countP_append, List.countP_map]
    have h0 : List.countP ((fun op => decide (op = RedisOp.xadd key Payload.done)) ∘
        (fun s => RedisOp.xadd key (Payload.chunk s))) ss = 0 := by
      rw [List.countP_eq_zero]
      intro s _
      simp
    rw [h0]
    simp [List.countP_cons]
  · rw [hss, List.countP_append, List.countP_map]
    have h0 : List.countP ((fun op =>
        match op with | RedisOp.xtrim _ _ _ => true | _ => false) ∘
        (fun s => RedisOp.xadd key (Payload.chunk s))) ss = 0 := by
      rw [List.countP_eq_zero]
      intro s _
      simp
    rw [h0]
    simp [List.countP_cons]
  · rw [hss]
    rw [show ss.map (fun s => RedisOp.xadd key (Payload.chunk s))
          ++ [RedisOp.xadd key Payload.done, RedisOp.xtrim key 10000 true]
        = (ss.map (fun s => RedisOp.xadd key (Payload.chunk s))
          ++ [RedisOp.xadd key Payload.done]) ++ [RedisOp.xtrim key 10000 true] by
      simp]
    exact List.getLast?_concat _

/-- Witness for `C4_mirror_done_last`: the spec's own scenario — `🙂\n` split
across chunks as `[F0 9F]`, `[99 82 0A]`. -/
theorem C4_mirror_done_last_witness :
    (mirrorRun "k" [[240, 159], [153, 130, 10]]).2.2 = true ∧
    (mirrorRun "k" [[240, 159], [153, 130, 10]]).1.getLast?
      = some (RedisOp.xtrim "k" 10000 true) :=
  ⟨by decide,
    (C4_mirror_done_last "k" [[240, 159], [153, 130, 10]] (by decide)).2.2.2⟩

/-- Claim C4 counterexample (to the unamended claim): a mirrored stream whose
bytes end in a lone UTF-8 lead byte.  The final `decoder.decode(b"", final=True)`
raises outside every `try`, the generator dies, and no `done` entry (and no
trim) is ever written even though the upstream iterator ended. -/
theorem C4_counterexample :
    mirrorRun "k" [[195]] = ([], [[195]], false) ∧
    (mirrorRun "k" [[195]]).1.countP
      (fun op => op = RedisOp.xadd "k" Payload.done) = 0 :=
  ⟨by decide, by decide⟩

/-! ### Claim C5: sniffing failure yields 400 `model_not_found`

The key fact is that the regex scanners are monotone along growing prefixes:
a (truthy) match found in a byte prefix is still found in any extension, so if
the full `SNIFF_BYTES` window yields nothing, no intermediate prefix examined
by the loop can have yielded anything either. -/

/-- `expectByte` is stable under appending on the right. -/
theorem expectByte_append {b : Nat} {bs r : Bytes} (s : Bytes)
    (h : expectByte b bs = some r) : expectByte b (bs ++ s) = some (r ++ s) := by
  cases bs with
  | nil => simp [expectByte] at h
  | cons c t =>
    simp only [expectByte] at h
    by_cases hc : c = b
    · rw [if_pos hc] at h
      injection h with h1
      show (if c = b then some (t ++ s) else none) = some (r ++ s)
      rw [if_pos hc, h1]
    · rw [if_neg hc] at h
      exact absurd h (by simp)

/-- `skipWsBytes` stops at an actual byte, so appending afterwards commutes. -/
theorem skipWs_append {bs : Bytes} {b : Nat} {r : Bytes} (s : Bytes)
    (h : skipWsBytes bs = b :: r) : skipWsBytes (bs ++ s) = b :: (r ++ s) := by
  induction bs with
  | nil => simp [skipWsBytes] at h
  | cons x t ih =>
    simp only [skipWsBytes] at h
    by_cases hx : isWsByte x = true
    · rw [if_pos hx] at h
      show (if isWsByte x = true then skipWsBytes (t ++ s) else x :: (t ++ s)) = b :: (r ++ s)
      rw [if_pos hx]
      exact ih h
    · rw [if_neg hx] at h
      show (if isWsByte x = true then skipWsBytes (t ++ s) else x :: (t ++ s)) = b :: (r ++ s)
      rw [if_neg hx]
      injection h with h1 h2
      subst h1
      subst h2
      rfl

/-- A `takeValueRun` that stopped at an actual byte is stable under append. -/
theorem takeValueRun_append {bs : Bytes} {v : Bytes} {b : Nat} {r : Bytes} (s : Bytes) :
    takeValueRun bs = (v, b :: r) → takeValueRun (bs ++ s) = (v, b :: (r ++ s)) := by
  induction bs generalizing v with
  | nil => intro h; simp [takeValueRun] at h
  | cons x t ih =>
    intro h
    simp only [takeValueRun] at h
    by_cases hx : (x = 34 ∨ x = 92)
    · rw [if_pos hx] at h
      simp only [Prod.mk.injEq] at h
      obtain ⟨hv, hxr⟩ := h
      injection hxr with h1 h2
      subst h1
      subst h2
      subst hv
      show (if x = 34 ∨ x = 92 then (([], x :: (t ++ s)) : Bytes × Bytes)
          else (x :: (takeValueRun (t ++ s)).1, (takeValueRun (t ++ s)).2))
        = ([], x :: (t ++ s))
      rw [if_pos hx]
    · rw [if_neg hx] at h
      simp only [Prod.mk.injEq] at h
      obtain ⟨hv, hxr⟩ := h
      have ht : takeValueRun t = ((takeValueRun t).1, b :: r) := by rw [← hxr]
      show (if x = 34 ∨ x = 92 then (([], x :: (t ++ s)) : Bytes × Bytes)
          else (x :: (takeValueRun (t ++ s)).1, (takeValueRun (t ++ s)).2))
        = (v, b :: (r ++ s))
      rw [if_neg hx, ih ht, ← hv]

/-- A `takeLineRun` that stopped at an actual byte is stable under append. -/
theorem takeLineRun_append {bs : Bytes} {v : Bytes} {b : Nat} {r : Bytes} (s : Bytes) :
    takeLineRun bs = (v, b :: r) → takeLineRun (bs ++ s) = (v, b :: (r ++ s)) := by
  induction bs generalizing v with
  | nil => intro h; simp [takeLineRun] at h
  | cons x t ih =>
    intro h
    simp only [takeLineRun] at h
    by_cases hx : (x = 13 ∨ x = 10)
    · rw [if_pos hx] at h
      simp only [Prod.mk.injEq] at h
      obtain ⟨hv, hxr⟩ := h
      injection hxr with h1 h2
      subst h1
      subst h2
      subst hv
      show (if x = 13 ∨ x = 10 then (([], x :: (t ++ s)) : Bytes × Bytes)
          else (x :: (takeLineRun (t ++ s)).1, (takeLineRun (t ++ s)).2))
        = ([], x :: (t ++ s))
      rw [if_pos hx]
    · rw [if_neg hx] at h
      simp only [Prod.mk.injEq] at h
      obtain ⟨hv, hxr⟩ := h
      have ht : takeLineRun t = ((takeLineRun t).1, b :: r) := by rw [← hxr]
      show (if x = 13 ∨ x = 10 then (([], x :: (t ++ s)) : Bytes × Bytes)
          else (x :: (takeLineRun (t ++ s)).1, (takeLineRun (t ++ s)).2))
        = (v, b :: (r ++ s))
      rw [if_neg hx, ih ht, ← hv]

/-- A `takeLineRun` that ran off the end extends through an append. -/
theorem takeLineRun_exhaust {bs : Bytes} {v : Bytes} (s : Bytes) :
    takeLineRun bs = (v, []) →
      takeLineRun (bs ++ s) = (v ++ (takeLineRun s).1, (takeLineRun s).2) := by
  induction bs generalizing v with
  | nil =>
    intro h
    simp only [takeLineRun] at h
    simp only [Prod.mk.injEq] at h
    rw [List.nil_append, ← h.1]
    simp
  | cons x t ih =>
    intro h
    simp only [takeLineRun] at h
    by_cases hx : (x = 13 ∨ x = 10)
    · rw [if_pos hx] at h
      simp only [Prod.mk.injEq] at h
      exact absurd h.2 (by simp)
    · rw [if_neg hx] at h
      simp only [Prod.mk.injEq] at h
      obtain ⟨hv, hxr⟩ := h
      have ht : takeLineRun t = ((takeLineRun t).1, []) := by rw [← hxr]
      show (if x = 13 ∨ x = 10 then (([], x :: (t ++ s)) : Bytes × Bytes)
          else (x :: (takeLineRun (t ++ s)).1, (takeLineRun (t ++ s)).2))
        = (v ++ (takeLineRun s).1, (takeLineRun s).2)
      rw [if_neg hx, ih ht, ← hv]
      rfl

/-- An anchored JSON match survives appending bytes, with the same capture. -/
theorem matchJsonAt_append {bs v : Bytes} (s : Bytes) (h : matchJsonAt bs = some v) :
    matchJsonAt (bs ++ s) = some v := by
  unfold matchJsonAt at h ⊢
  by_cases hp : litJson.isPrefixOf bs = true
  case neg => rw [if_neg hp] at h; exact absurd h (by simp)
  rw [if_pos hp] at h
  have hpre : litJson <+: bs := List.isPrefixOf_iff_prefix.mp hp
  have hp' : litJson.isPrefixOf (bs ++ s) = true :=
    List.isPrefixOf_iff_prefix.mpr (hpre.trans (List.prefix_append bs s))
  rw [if_pos hp']
  rw [List.drop_append_of_le_length hpre.length_le]
  rcases h1 : skipWsBytes (bs.drop litJson.length) with _ | ⟨c1, r2⟩
  · rw [h1] at h
    simp [expectByte] at h
  · rw [h1] at h
    rw [skipWs_append s h1]
    rcases h2 : expectByte 58 (c1 :: r2) with _ | r3
    · rw [h2] at h
      simp at h
    · rw [h2] at h
      rw [Option.some_bind] at h
      have h2' := expectByte_append s h2
      rw [List.cons_append] at h2'
      rw [h2', Option.some_bind]
      rcases h3 : skipWsBytes r3 with _ | ⟨c2, r4⟩
      · rw [h3] at h
        simp [expectByte] at h
      · rw [h3] at h
        rw [skipWs_append s h3]
        rcases h4 : expectByte 34 (c2 :: r4) with _ | r5
        · rw [h4] at h
          simp at h
        · rw [h4] at h
          rw [Option.some_bind] at h
          have h4' := expectByte_append s h4
          rw [List.cons_append] at h4'
          rw [h4', Option.some_bind]
          by_cases h5 : (takeValueRun r5).1 ≠ []
          · rw [if_pos h5] at h
            rcases h6 : (takeValueRun r5).2 with _ | ⟨c3, r6⟩
            · rw [h6] at h
              simp [expectByte] at h
            · rw [h6] at h
              by_cases h7 : c3 = 34
              · have htv : takeValueRun r5 = ((takeValueRun r5).1, c3 :: r6) := by rw [← h6]
                have htv' := takeValueRun_append s htv
                have h8 : (takeValueRun (r5 ++ s)).1 = (takeValueRun r5).1 := by rw [htv']
                have h9 : (takeValueRun (r5 ++ s)).2 = c3 :: (r6 ++ s) := by rw [htv']
                rw [h8, h9, if_pos h5]
                rw [show expectByte 34 (c3 :: (r6 ++ s)) = some (r6 ++ s) by
                  simp [expectByte, h7]]
                rw [show expectByte 34 (c3 :: r6) = some r6 by simp [expectByte, h7]] at h
                simpa using h
              · rw [show expectByte 34 (c3 :: r6) = none by simp [expectByte, h7]] at h
                simp at h
          · rw [if_neg h5] at h
            exact absurd h (by simp)

/-- A successful anchored JSON match has a nonempty capture. -/
theorem matchJsonAt_ne_nil {bs v : Bytes} (h : matchJsonAt bs = some v) : v ≠ [] := by
  unfold matchJsonAt at h
  by_cases hp : litJson.isPrefixOf bs = true
  case neg => rw [if_neg hp] at h; exact absurd h (by simp)
  rw [if_pos hp] at h
  rcases h1 : expectByte 58 (skipWsBytes (bs.drop litJson.length)) with _ | r3
  · rw [h1] at h; simp at h
  · rw [h1, Option.some_bind] at h
    rcases h2 : expectByte 34 (skipWsBytes r3) with _ | r5
    · rw [h2] at h; simp at h
    · rw [h2, Option.some_bind] at h
      by_cases h5 : (takeValueRun r5).1 ≠ []
      · rw [if_pos h5] at h
        rcases h6 : expectByte 34 (takeValueRun r5).2 with _ | r6
        · rw [h6] at h; simp at h
        · rw [h6] at h
          rw [Option.map_some'] at h
          injection h with hv
          rw [← hv]
          exact h5
      · rw [if_neg h5] at h
        exact absurd h (by simp)

/-- `searchJson` on a cons, by the head-match outcome. -/
theorem searchJson_cons_some {b : Nat} {t v : Bytes}
    (h : matchJsonAt (b :: t) = some v) : searchJson (b :: t) = some v := by
  simp [searchJson, h]

/-- `searchJson` falls through to the tail when the head match fails. -/
theorem searchJson_cons_none {b : Nat} {t : Bytes}
    (h : matchJsonAt (b :: t) = none) : searchJson (b :: t) = searchJson t := by
  simp [searchJson, h]

/-- A `searchJson` hit survives appending bytes (possibly with a different
leftmost capture). -/
theorem searchJson_append {bs : Bytes} (s : Bytes) (h : searchJson bs ≠ none) :
    searchJson (bs ++ s) ≠ none := by
  induction bs with
  | nil => simp [searchJson] at h
  | cons b t ih =>
    rcases hm : matchJsonAt (b :: t) with _ | v
    · rw [searchJson_cons_none hm] at h
      have h2 := ih h
      rw [List.cons_append]
      rcases hm2 : matchJsonAt (b :: (t ++ s)) with _ | v2
      · rw [searchJson_cons_none hm2]
        exact h2
      · rw [searchJson_cons_some hm2]
        simp
    · have hm' := matchJsonAt_append s hm
      rw [List.cons_append] at hm' ⊢
      rw [searchJson_cons_some hm']
      simp

/-- Every `searchJson` capture is nonempty. -/
theorem searchJson_some_ne_nil {bs v : Bytes} (h : searchJson bs = some v) :
    v ≠ [] := by
  induction bs with
  | nil => simp [searchJson] at h
  | cons b t ih =>
    rcases hm : matchJsonAt (b :: t) with _ | v0
    · rw [searchJson_cons_none hm] at h
      exact ih h
    · rw [searchJson_cons_some hm] at h
      injection h with hv
      rw [← hv]
      exact matchJsonAt_ne_nil hm

/-- `takeLineRun` splits its input: run ++ rest = input. -/
theorem takeLineRun_eq_append (u : Bytes) :
    (takeLineRun u).1 ++ (takeLineRun u).2 = u := by
  induction u with
  | nil => rfl
  | cons x t ih =>
    simp only [takeLineRun]
    by_cases hx : (x = 13 ∨ x = 10)
    · rw [if_pos hx]
      rfl
    · rw [if_neg hx]
      simp only [List.cons_append]
      rw [ih]

/-- An anchored multipart match extends (the greedy capture may grow). -/
theorem matchMpAt_append {bs v : Bytes} (s : Bytes) (h : matchMpAt bs = some v) :
    ∃ w, matchMpAt (bs ++ s) = some (v ++ w) := by
  unfold matchMpAt at h ⊢
  by_cases hp : litMp.isPrefixOf bs = true
  case neg => rw [if_neg hp] at h; exact absurd h (by simp)
  rw [if_pos hp] at h
  have hpre : litMp <+: bs := List.isPrefixOf_iff_prefix.mp hp
  have hp' : litMp.isPrefixOf (bs ++ s) = true :=
    List.isPrefixOf_iff_prefix.mpr (hpre.trans (List.prefix_append bs s))
  rw [if_pos hp']
  rw [List.drop_append_of_le_length hpre.length_le]
  by_cases hr : (takeLineRun (bs.drop litMp.length)).1 ≠ []
  case neg => rw [if_neg hr] at h; exact absurd h (by simp)
  rw [if_pos hr] at h
  injection h with hv
  rcases h2 : (takeLineRun (bs.drop litMp.length)).2 with _ | ⟨d, rr⟩
  · have ht : takeLineRun (bs.drop litMp.length)
        = ((takeLineRun (bs.drop litMp.length)).1, []) := by rw [← h2]
    have hext := takeLineRun_exhaust s ht
    have e1 : (takeLineRun (bs.drop litMp.length ++ s)).1
        = (takeLineRun (bs.drop litMp.length)).1 ++ (takeLineRun s).1 := by rw [hext]
    refine ⟨(takeLineRun s).1, ?_⟩
    rw [e1, if_pos (by simp [hr])]
    rw [hv]
  · have ht : takeLineRun (bs.drop litMp.length)
        = ((takeLineRun (bs.drop litMp.length)).1, d :: rr) := by rw [← h2]
    have hext := takeLineRun_append s ht
    have e1 : (takeLineRun (bs.drop litMp.length ++ s)).1
        = (takeLineRun (bs.drop litMp.length)).1 := by rw [hext]
    refine ⟨[], ?_⟩
    rw [e1, if_pos hr]
    rw [hv]
    simp

/-- An anchored multipart match needs at least `litMp.length + 1` bytes. -/
theorem matchMpAt_some_length {bs v : Bytes} (h : matchMpAt bs = some v) :
    litMp.length + 1 ≤ bs.length := by
  unfold matchMpAt at h
  by_cases hp : litMp.isPrefixOf bs = true
  case neg => rw [if_neg hp] at h; exact absurd h (by simp)
  rw [if_pos hp] at h
  have hpre : litMp <+: bs := List.isPrefixOf_iff_prefix.mp hp
  by_cases hr : (takeLineRun (bs.drop litMp.length)).1 ≠ []
  case neg => rw [if_neg hr] at h; exact absurd h (by simp)
  have hsplit := takeLineRun_eq_append (bs.drop litMp.length)
  have hlen := congrArg List.length hsplit
  rw [List.length_append, List.length_drop] at hlen
  have hrun : 1 ≤ (takeLineRun (bs.drop litMp.length)).1.length := by
    rcases hq : (takeLineRun (bs.drop litMp.length)).1 with _ | ⟨x, xs⟩
    · exact absurd hq hr
    · simp
  have := hpre.length_le
  omega

/-- A `searchMp` hit needs at least `litMp.length + 1` bytes. -/
theorem searchMp_some_length {bs v : Bytes} (h : searchMp bs = some v) :
    litMp.length + 1 ≤ bs.length := by
  induction bs with
  | nil => simp [searchMp] at h
  | cons b t ih =>
    rcases hm : matchMpAt (b :: t) with _ | v0
    · rw [show searchMp (b :: t) = searchMp t by simp [searchMp, hm]] at h
      have := ih h
      simp only [List.length_cons]
      omega
    · have := matchMpAt_some_length hm
      exact this

/-- A failed anchored multipart match stays failed under append, provided the
input already holds more than the literal. -/
theorem matchMpAt_none_stable {bs : Bytes} (s : Bytes) (h : matchMpAt bs = none)
    (hlen : litMp.length + 1 ≤ bs.length) : matchMpAt (bs ++ s) = none := by
  unfold matchMpAt at h ⊢
  by_cases hp : litMp.isPrefixOf bs = true
  · rw [if_pos hp] at h
    have hpre : litMp <+: bs := List.isPrefixOf_iff_prefix.mp hp
    have hp' : litMp.isPrefixOf (bs ++ s) = true :=
      List.isPrefixOf_iff_prefix.mpr (hpre.trans (List.prefix_append bs s))
    rw [if_pos hp']
    rw [List.drop_append_of_le_length hpre.length_le]
    by_cases hr : (takeLineRun (bs.drop litMp.length)).1 ≠ []
    · rw [if_pos hr] at h
      exact absurd h (by simp)
    · push_neg at hr
      have hdlen : 1 ≤ (bs.drop litMp.length).length := by
        rw [List.length_drop]
        omega
      rcases hd : bs.drop litMp.length with _ | ⟨d, rr⟩
      · rw [hd] at hdlen
        simp at hdlen
      · rw [hd] at hr
        have hdc : (d = 13 ∨ d = 10) := by
          by_contra hno
          rw [show takeLineRun (d :: rr)
              = (d :: (takeLineRun rr).1, (takeLineRun rr).2) by
            simp only [takeLineRun, if_neg hno]] at hr
          simp at hr
        have hempty : (takeLineRun (d :: (rr ++ s))).1 = [] := by
          simp only [takeLineRun, if_pos hdc]
        rw [if_neg (by simp [hempty])]
  · have hp' : ¬ litMp.isPrefixOf (bs ++ s) = true := by
      intro hcon
      apply hp
      rw [List.isPrefixOf_iff_prefix] at hcon ⊢
      rw [List.prefix_iff_eq_take] at hcon ⊢
      rw [List.take_append_of_le_length (by omega)] at hcon
      exact hcon
    rw [if_neg hp']

/-- A `searchMp` hit extends under append: the (leftmost) capture only grows. -/
theorem searchMp_append {bs v : Bytes} (s : Bytes) (h : searchMp bs = some v) :
    ∃ w, searchMp (bs ++ s) = some (v ++ w) := by
  induction bs with
  | nil => simp [searchMp] at h
  | cons b t ih =>
    rcases hm : matchMpAt (b :: t) with _ | v0
    · rw [show searchMp (b :: t) = searchMp t by simp [searchMp, hm]] at h
      have hlen := searchMp_some_length h
      have hnone := matchMpAt_none_stable s hm (by simp; omega)
      obtain ⟨w, hw⟩ := ih h
      refine ⟨w, ?_⟩
      rw [List.cons_append]
      rw [List.cons_append] at hnone
      rw [show searchMp (b :: (t ++ s)) = searchMp (t ++ s) by simp [searchMp, hnone]]
      exact hw
    · rw [show searchMp (b :: t) = some v0 by simp [searchMp, hm]] at h
      injection h with hv
      obtain ⟨w, hw⟩ := matchMpAt_append s hm
      refine ⟨w, ?_⟩
      rw [List.cons_append]
      rw [List.cons_append] at hw
      rw [show searchMp (b :: (t ++ s)) = some (v0 ++ w) by simp [searchMp, hw]]
      rw [hv]

/-- `stripBytes` gives the empty string exactly on all-whitespace input. -/
theorem stripBytes_eq_nil_iff (v : Bytes) :
    stripBytes v = [] ↔ ∀ b ∈ v, isWsByte b = true := by
  unfold stripBytes
  rw [List.reverse_eq_nil_iff, List.dropWhile_eq_nil_iff]
  constructor
  · intro h b hb
    have hsplit : List.takeWhile isWsByte v ++ List.dropWhile isWsByte v = v :=
      List.takeWhile_append_dropWhile isWsByte v
    rw [← hsplit] at hb
    rcases List.mem_append.mp hb with hbt | hbd
    · exact List.mem_takeWhile_imp hbt
    · exact h b (List.mem_reverse.mpr hbd)
  · intro h b hb
    exact h b ((List.dropWhile_sublist isWsByte).subset (List.mem_reverse.mp hb))

/-- `searchJson` found-ness survives appending bytes. -/
theorem foundModel_searchJson_append {p : Bytes} (s : Bytes)
    (h : foundModel (searchJson p) = true) :
    foundModel (searchJson (p ++ s)) = true := by
  rcases hs : searchJson p with _ | v
  · rw [hs] at h
    simp [foundModel] at h
  · have hne : searchJson (p ++ s) ≠ none := searchJson_append s (by rw [hs]; simp)
    rcases hs2 : searchJson (p ++ s) with _ | v2
    · exact absurd hs2 hne
    · have := searchJson_some_ne_nil hs2
      simp [foundModel, this]

/-- The extractor's found-ness (Python truthiness of the extracted model) is
monotone along growing byte prefixes. -/
theorem foundModel_extract_append {p : Bytes} {ct : String} (s : Bytes)
    (h : foundModel (_extract_model_from_prefix_buf p ct) = true) :
    foundModel (_extract_model_from_prefix_buf (p ++ s) ct) = true := by
  unfold _extract_model_from_prefix_buf at h ⊢
  by_cases h1 : (pyContains ct "application/json" = true ∨ pyEndsWith ct "+json" = true)
  · rw [if_pos h1] at h ⊢
    exact foundModel_searchJson_append s h
  · rw [if_neg h1] at h ⊢
    by_cases h2 : pyContains ct "multipart/form-data" = true
    · rw [if_pos h2] at h ⊢
      rcases hs : searchMp p with _ | v
      · rw [hs] at h
        simp [foundModel] at h
      · rw [hs, Option.map_some'] at h
        have hv : stripBytes v ≠ [] := by simpa [foundModel] using h
        obtain ⟨w, hw⟩ := searchMp_append s hs
        rw [hw, Option.map_some']
        have hne : stripBytes (v ++ w) ≠ [] := by
          intro hcon
          apply hv
          rw [stripBytes_eq_nil_iff] at hcon ⊢
          intro b hb
          exact hcon b (List.mem_append.mpr (Or.inl hb))
        simp [foundModel, hne]
    · rw [if_neg h2] at h ⊢
      exact foundModel_searchJson_append s h

/-- Found-ness transfers from a byte prefix to the whole buffer. -/
theorem foundModel_extract_of_prefix {p P : Bytes} {ct : String} (hpre : p <+: P)
    (h : foundModel (_extract_model_from_prefix_buf p ct) = true) :
    foundModel (_extract_model_from_prefix_buf P ct) = true := by
  obtain ⟨t, rfl⟩ := hpre
  exact foundModel_extract_append t h

/-- The loop's prefix-buffer update computes `take limit` of the bytes seen. -/
theorem pfx_update (limit : Nat) (A c : Bytes) :
    (if (A.take limit).length < limit then
      A.take limit ++ c.take (limit - (A.take limit).length)
     else A.take limit) = (A ++ c).take limit := by
  by_cases hA : A.length < limit
  · have h1 : (A.take limit).length < limit := by
      rw [List.length_take]
      omega
    rw [if_pos h1, List.take_of_length_le (le_of_lt hA), List.take_append_eq_append_take,
      List.take_of_length_le (le_of_lt hA)]
  · have h1 : ¬ (A.take limit).length < limit := by
      rw [List.length_take]
      omega
    rw [if_neg h1, List.take_append_eq_append_take]
    rw [show limit - A.length = 0 from by omega]
    simp

/-- `take` preserves the prefix order. -/
theorem take_prefix_mono {α : Type} {a b : List α} (n : Nat) (h : a <+: b) :
    a.take n <+: b.take n := by
  obtain ⟨t, rfl⟩ := h
  rw [List.take_append_eq_append_take]
  exact ⟨t.take (n - a.length), rfl⟩

/-- If the first `limit` bytes of the whole body extract nothing truthy, the
sniff loop never finds a model. -/
theorem sniffLoop_not_found (ct : String) (limit : Nat) (allBytes : Bytes)
    (hnf : foundModel (_extract_model_from_prefix_buf (allBytes.take limit) ct) = false) :
    ∀ (cs seen : List Bytes),
      seen.flatten ++ cs.flatten = allBytes →
      foundModel (sniffLoop ct limit cs seen (seen.flatten.take limit)).1 = false := by
  intro cs
  induction cs with
  | nil =>
    intro seen hall
    simp [sniffLoop, foundModel]
  | cons c rest ih =>
    intro seen hall
    simp only [sniffLoop]
    by_cases hc : c = []
    · rw [if_pos hc]
      refine ih seen ?_
      rw [← hall]
      simp [hc]
    · rw [if_neg hc]
      have hpfx : (if (seen.flatten.take limit).length < limit
          then seen.flatten.take limit ++ c.take (limit - (seen.flatten.take limit).length)
          else seen.flatten.take limit) = ((seen ++ [c]).flatten).take limit := by
        rw [pfx_update limit seen.flatten c]
        congr 1
        simp
      rw [hpfx]
      have hnotf : foundModel (_extract_model_from_prefix_buf
          (((seen ++ [c]).flatten).take limit) ct) = false := by
        by_contra hcon
        rw [Bool.not_eq_false] at hcon
        have hpre : ((seen ++ [c]).flatten).take limit <+: allBytes.take limit := by
          apply take_prefix_mono
          refine ⟨rest.flatten, ?_⟩
          rw [← hall]
          simp [List.append_assoc]
        have hfound := foundModel_extract_of_prefix hpre hcon
        rw [hnf] at hfound
        exact Bool.false_ne_true hfound
      rw [if_neg (by rw [hnotf]; simp)]
      by_cases hl : limit ≤ (((seen ++ [c]).flatten).take limit).length
      · rw [if_pos hl]
        exact hnotf
      · rw [if_neg hl]
        have hall' : (seen ++ [c]).flatten ++ rest.flatten = allBytes := by
          rw [← hall]
          simp [List.append_assoc]
        exact ih (seen ++ [c]) hall'

/-- The loop keeps the prefix buffer within `limit` and stops only on a truthy
model or a full buffer (when chunks remain unconsumed). -/
theorem sniffLoop_stop (ct : String) (limit : Nat) :
    ∀ (cs seen : List Bytes) (pfx : Bytes), pfx.length ≤ limit →
      (sniffLoop ct limit cs seen pfx).2.2.2.length ≤ limit ∧
      ((sniffLoop ct limit cs seen pfx).2.2.1 ≠ [] →
        foundModel (sniffLoop ct limit cs seen pfx).1 = true ∨
        limit ≤ (sniffLoop ct limit cs seen pfx).2.2.2.length) := by
  intro cs
  induction cs with
  | nil =>
    intro seen pfx hp
    exact ⟨by simpa [sniffLoop] using hp, by simp [sniffLoop]⟩
  | cons c rest ih =>
    intro seen pfx hp
    simp only [sniffLoop]
    by_cases hc : c = []
    · rw [if_pos hc]
      exact ih seen pfx hp
    · rw [if_neg hc]
      have hp' : (if pfx.length < limit then pfx ++ c.take (limit - pfx.length)
          else pfx).length ≤ limit := by
        by_cases hlt : pfx.length < limit
        · rw [if_pos hlt]
          rw [List.length_append, List.length_take]
          omega
        · rw [if_neg hlt]
          exact hp
      by_cases hf : foundModel (_extract_model_from_prefix_buf
          (if pfx.length < limit then pfx ++ c.take (limit - pfx.length) else pfx) ct) = true
      · rw [if_pos hf]
        exact ⟨hp', fun _ => Or.inl hf⟩
      · rw [if_neg hf]
        by_cases hl : limit ≤
            (if pfx.length < limit then pfx ++ c.take (limit - pfx.length) else pfx).length
        · rw [if_pos hl]
          exact ⟨hp', fun _ => Or.inr hl⟩
        · rw [if_neg hl]
          exact ih (seen ++ [c]) _ hp'

/-- Claim C5: sniffing stops as soon as a model is extracted or the prefix
buffer reaches `SNIFF_BYTES` (default 1048576), and when no model is present
in the query string and none is extracted from the first `SNIFF_BYTES` bytes
of the body, `route_and_proxy` answers 400 `invalid_request_error` with code
`model_not_found`. -/
theorem C5_sniff_miss_returns_400 (ct : String) (limit : Nat) (chunks : List Bytes)
    (hnf : foundModel (_extract_model_from_prefix_buf ((chunks.flatten).take limit) ct)
      = false) :
    route_sniff (sniff_model_and_stream none ct limit chunks)
      = .error (openai_error 400 sniffErrMsg "invalid_request_error"
          (some "model_not_found")) ∧
    SNIFF_BYTES_default = 1048576 ∧
    (sniffLoop ct limit chunks [] []).2.2.2.length ≤ limit ∧
    ((sniffLoop ct limit chunks [] []).2.2.1 ≠ [] →
      foundModel (sniffLoop ct limit chunks [] []).1 = true ∨
      limit ≤ (sniffLoop ct limit chunks [] []).2.2.2.length) := by
  have hstop := sniffLoop_stop ct limit chunks [] [] (by simp)
  have hloop : foundModel (sniffLoop ct limit chunks [] []).1 = false := by
    have := sniffLoop_not_found ct limit chunks.flatten hnf chunks []
    simpa using this
  refine ⟨?_, rfl, hstop.1, hstop.2⟩
  show route_sniff (sniff_body ct limit chunks) = _
  unfold sniff_body
  rcases hres : sniffLoop ct limit chunks [] [] with ⟨m, seen, rest, pfx⟩
  rw [hres] at hloop
  cases m with
  | none => rfl
  | some v =>
    have hv : ¬ (v ≠ []) := by
      simpa [foundModel] using hloop
    show route_sniff (if v ≠ [] then Except.ok (v, seen ++ rest)
      else Except.error sniffErrMsg) = _
    rw [if_neg hv]
    rfl

/-- Witness for `C5_sniff_miss_returns_400`: a JSON body whose `model` field
lies beyond a 3-byte sniff window. -/
theorem C5_sniff_miss_returns_400_witness :
    foundModel (_extract_model_from_prefix_buf
      ((([bytesOfAscii "\"model\":\"m1\""] : List Bytes).flatten).take 3)
      "application/json") = false ∧
    route_sniff (sniff_model_and_stream none "application/json" 3
        [bytesOfAscii "\"model\":\"m1\""])
      = .error (openai_error 400 sniffErrMsg "invalid_request_error"
          (some "model_not_found")) :=
  ⟨by decide,
    (C5_sniff_miss_returns_400 "application/json" 3
      [bytesOfAscii "\"model\":\"m1\""] (by decide)).1⟩

end Proxy
